import Mathlib

/-!
# Ordinals envelope decoder of `brc20-decode` (`main.go`)

A shallow embedding of the cursor-based envelope decoder of `main.go`
(`readBytes`, `getInitialPosition`, `readContentType`, `readPushdata`,
`decode`) together with theorems about it.

Modelling conventions.

* A byte is a `Fin 256`.
* A Go `[]byte` is a window on a backing array: it has a length and a
  capacity.  A slice expression `raw[lo:hi]` on a slice is legal as long as
  `hi <= cap(raw)`, so the bytes between `len(raw)` and `cap(raw)` are
  reachable by re-slicing.  `Slice` therefore carries the visible bytes
  (`data`) and the bytes of the backing array after them (`spare`).  A slice
  whose capacity equals its length has `spare = []`.
* `decode` gets `raw` from `hex.DecodeString`, and the library decides the
  capacity of that slice.  A decoder that allocates its result returns a slice
  without spare capacity.  A decoder that works inside the byte copy of the hex
  string returns the front of that copy, and the spare capacity then holds the
  character codes of the second half of the string.  Either way the spare
  capacity holds codes of hex digits and zero bytes, never the byte `0x68`.
* The process-wide variable `pointer` is threaded explicitly: every function
  that reads or writes it takes its current value and returns the new one.
  Offsets are natural numbers (`decode` only ever stores a non-negative
  value in `pointer` and only ever adds non-negative amounts to it); Go's `int`
  is 64 bits wide and the offsets stay far below `2^63`.
* A Go run-time panic (`slice bounds out of range`) is the result `panic`;
  a returned `error` value is the result `err`.
-/

namespace Brc20Decode

/-- One byte. -/
abbrev Byte := Fin 256

/-- A Go `[]byte`: `data` are the `len` visible bytes, `spare` the bytes of the
backing array between `len` and `cap`. -/
structure Slice where
  data : List Byte
  spare : List Byte
deriving DecidableEq

/-- Go `len(raw)`. -/
def Slice.len (raw : Slice) : Nat := raw.data.length

/-- Go `cap(raw)`. -/
def Slice.cap (raw : Slice) : Nat := raw.data.length + raw.spare.length

/-- The backing array from the start of the slice up to its capacity. -/
def Slice.backing (raw : Slice) : List Byte := raw.data ++ raw.spare

/-- A slice whose capacity equals its length. -/
def Slice.ofBytes (bs : List Byte) : Slice := ⟨bs, []⟩

/-- The `error` values built in `main.go`, named after the failure kinds. -/
inductive Err
  /-- The error "No ordinal inscription found in transaction". -/
  | markerNotFound
  /-- The error "Invalid byte sequence" of `readContentType`. -/
  | invalidContentTypePrefix
  /-- The error "Invalid push opcode %x at position %d". -/
  | invalidPushOpcode
  /-- The error "Invalid data length at position %d". -/
  | truncatedPushData
deriving DecidableEq

/-- Result of a function that uses the global `pointer`: a normal return with
value and new pointer, a returned `error` with the pointer at that moment, or a
run-time panic with the pointer at that moment. -/
inductive Res (α : Type) where
  | ok (val : α) (pointer : Nat)
  | err (e : Err) (pointer : Nat)
  | panic (pointer : Nat)
deriving DecidableEq

/-- Sequencing: continue with the value and the pointer of a normal return. -/
def Res.bind {α β : Type} (r : Res α) (f : α → Nat → Res β) : Res β :=
  match r with
  | .ok v p => f v p
  | .err e p => .err e p
  | .panic p => .panic p

/-- The pointer a result leaves behind. -/
def Res.pointer {α : Type} : Res α → Nat
  | .ok _ p => p
  | .err _ p => p
  | .panic p => p

/-- `readBytes(raw, n)`: `value := raw[pointer : pointer+n]; pointer += n`.
The slice expression panics when `pointer+n` exceeds the capacity. -/
def readBytes (raw : Slice) (n : Nat) (pointer : Nat) : Res (List Byte) :=
  if pointer + n ≤ raw.cap then
    .ok ((raw.backing.drop pointer).take n) (pointer + n)
  else
    .panic pointer

/-- The expression `readBytes(raw, 1)[0]`. -/
def readByte (raw : Slice) (pointer : Nat) : Res Byte :=
  (readBytes raw 1 pointer).bind fun value p =>
    match value with
    | b :: _ => .ok b p
    | [] => .panic p

/-- The marker `inscriptionMark` of `getInitialPosition`. -/
def inscriptionMark : List Byte := [0x00, 0x63, 0x03, 0x6f, 0x72, 0x64]

/-- Go `strings.Index(s, substr)`: the index of the first instance of `substr`
in `s`; `none` stands for `-1`. -/
def stringsIndex : List Byte → List Byte → Option Nat
  | [], substr => if substr.isPrefixOf [] then some 0 else none
  | b :: s, substr =>
    if substr.isPrefixOf (b :: s) then some 0
    else (stringsIndex s substr).map (· + 1)

/-- `getInitialPosition(raw)`: returns the pair `(int, error)`; the error is
`none` for Go's `nil`. -/
def getInitialPosition (raw : Slice) : Nat × Option Err :=
  match stringsIndex raw.data inscriptionMark with
  | none => (0, some .markerNotFound)
  | some pos => (pos + inscriptionMark.length, none)

/-- The opcode `OP_1`. -/
def OP_1 : Byte := 0x51

/-- `readContentType(raw)`. -/
def readContentType (raw : Slice) (pointer : Nat) : Res (List Byte) :=
  (readByte raw pointer).bind fun b p1 =>
  (if b ≠ OP_1 then
      if b ≠ 0x01 then (Res.err .invalidContentTypePrefix p1 : Res Unit)
      else (readByte raw p1).bind fun b2 p2 =>
        if b2 ≠ 0x01 then Res.err .invalidContentTypePrefix p2
        else Res.ok () p2
    else Res.ok () p1).bind fun _ p =>
  (readByte raw p).bind fun size p3 =>
  readBytes raw size.val p3

/-- Go `binary.LittleEndian.Uint16(b)`: `uint16(b[0]) | uint16(b[1])<<8`;
`none` is the index-out-of-range panic on a short slice. -/
def littleEndianUint16 : List Byte → Option Nat
  | b0 :: b1 :: _ => some (b0.val ||| (b1.val <<< 8))
  | _ => none

/-- Go `binary.LittleEndian.Uint32(b)`:
`uint32(b[0]) | uint32(b[1])<<8 | uint32(b[2])<<16 | uint32(b[3])<<24`. -/
def littleEndianUint32 : List Byte → Option Nat
  | b0 :: b1 :: b2 :: b3 :: _ =>
    some (b0.val ||| (b1.val <<< 8) ||| (b2.val <<< 16) ||| (b3.val <<< 24))
  | _ => none

/-- The first `switch` of `readPushdata`: the width of the length field, `none`
for the `default` branch. -/
def numBytesOf (intOpcode : Nat) : Option Nat :=
  if intOpcode = 0x4c then some 1
  else if intOpcode = 0x4d then some 2
  else if intOpcode = 0x4e then some 4
  else none

/-- The second `switch` of `readPushdata`: the declared size read from
`sizeBytes`; `none` is an index-out-of-range panic. -/
def sizeOf (numBytes : Nat) (sizeBytes : List Byte) : Option Nat :=
  match numBytes with
  | 1 => sizeBytes.head?.map Fin.val
  | 2 => littleEndianUint16 sizeBytes
  | 4 => littleEndianUint32 sizeBytes
  | _ => some 0

/-- `readPushdata(raw, opcode)`. -/
def readPushdata (raw : Slice) (opcode : Byte) (pointer : Nat) : Res (List Byte) :=
  let intOpcode := opcode.val
  if 0x01 ≤ intOpcode ∧ intOpcode ≤ 0x4b then
    readBytes raw intOpcode pointer
  else
    match numBytesOf intOpcode with
    | none => .err .invalidPushOpcode pointer
    | some numBytes =>
      if pointer + numBytes > raw.len then
        .err .truncatedPushData pointer
      else
        (readBytes raw numBytes pointer).bind fun sizeBytes p1 =>
          match sizeOf numBytes sizeBytes with
          | none => .panic p1
          | some size =>
            if p1 + size > raw.len then .err .truncatedPushData p1
            else readBytes raw size p1

/-- The opcode `OP_ENDIF`. -/
def OP_ENDIF : Byte := 0x68

/-- How a call of `decode` ends. -/
inductive Outcome
  /-- The loop saw `OP_ENDIF`: the content type and the payload are printed,
  then "Done". -/
  | done (contentType payload : List Byte)
  /-- The byte after the content type is not `0x00`: "Error: Invalid byte
  sequence" is printed and `decode` returns. -/
  | invalidSeparator (contentType : List Byte)
  /-- A run-time panic (`slice bounds out of range`). -/
  | panicked
  /-- The model ran out of fuel (never the case for `decode`). -/
  | outOfFuel
deriving DecidableEq

/-- The loop of `decode`,
`opcode := readBytes(raw, 1)[0]; for opcode != OP_ENDIF { chunk, _ :=
readPushdata(raw, opcode); data = append(data, chunk...); opcode =
readBytes(raw, 1)[0] }`, followed by the prints of the normal end.
One round of the model is: read the opcode, test it, run the loop body.  The
error of `readPushdata` is discarded by the source, and `chunk` is `nil` then.
`fuel` bounds the number of rounds.  `readByte` has no `err` result
(`readByte_ne_err`); the arm for it is there for the match to be complete. -/
def payloadLoop (raw : Slice) (contentType : List Byte) :
    Nat → List Byte → Nat → Outcome × Nat
  | 0, _, pointer => (.outOfFuel, pointer)
  | fuel + 1, data, pointer =>
    match readByte raw pointer with
    | .panic p => (.panicked, p)
    | .err _ p => (.panicked, p)
    | .ok opcode p =>
      if opcode ≠ OP_ENDIF then
        match readPushdata raw opcode p with
        | .panic p2 => (.panicked, p2)
        | .err _ p2 => payloadLoop raw contentType fuel data p2
        | .ok chunk p2 => payloadLoop raw contentType fuel (data ++ chunk) p2
      else (.done contentType data, p)

/-- The part of `decode` after `contentType, _ := readContentType(raw)`: the
separator check and the loop.  `contentType` is the value `readContentType`
returned (the empty string next to an error).  Every round of the loop that
goes on moves the pointer forward and the pointer never exceeds the capacity,
so `cap + 1` rounds are enough. -/
def decodeBody (raw : Slice) (contentType : List Byte) (pointer : Nat) : Outcome × Nat :=
  match readByte raw pointer with
  | .panic p1 => (.panicked, p1)
  | .err _ p1 => (.panicked, p1)
  | .ok sep p1 =>
    if sep ≠ 0x00 then (.invalidSeparator contentType, p1)
    else payloadLoop raw contentType (raw.cap + 1) [] p1

/-- `decode`, after the hex decoding of its argument: `raw` is the decoded
buffer, `pointer0` the value the global `pointer` has when `decode` is called.
Returns the outcome and the value of `pointer` at the end.  Both error returns
are discarded by the source (`pointer, _ = ...`, `contentType, _ := ...`). -/
def decode (raw : Slice) (pointer0 : Nat) : Outcome × Nat :=
  let _ := pointer0
  let pointer := (getInitialPosition raw).1
  match readContentType raw pointer with
  | .panic p => (.panicked, p)
  | .err _ p => decodeBody raw [] p
  | .ok contentType p => decodeBody raw contentType p

/-! ## The writing side, as the specification describes it

`main.go` only reads envelopes.  The definitions below build the buffers the
specification talks about: a push of a chunk in one of the four forms and the
envelope around a content type and a list of pushes. -/

/-- The low eight bits of a number, as a byte. -/
def byteOfNat (n : Nat) : Byte := ⟨n % 256, Nat.mod_lt _ (by decide)⟩

/-- The four ways of pushing a chunk. -/
inductive PushForm
  /-- Opcode `0x01`-`0x4b`: the opcode is the length. -/
  | direct
  /-- Opcode `0x4c`, then one length byte. -/
  | pushdata1
  /-- Opcode `0x4d`, then two length bytes, little-endian. -/
  | pushdata2
  /-- Opcode `0x4e`, then four length bytes, little-endian. -/
  | pushdata4
deriving DecidableEq

/-- The longest chunk a form can announce. -/
def PushForm.maxLen : PushForm → Nat
  | .direct => 75
  | .pushdata1 => 255
  | .pushdata2 => 65535
  | .pushdata4 => 4294967295

/-- Opcode and length field of a push of `n` bytes. -/
def pushHeader (f : PushForm) (n : Nat) : List Byte :=
  match f with
  | .direct => [byteOfNat n]
  | .pushdata1 => [0x4c, byteOfNat n]
  | .pushdata2 => [0x4d, byteOfNat n, byteOfNat (n / 2 ^ 8)]
  | .pushdata4 =>
    [0x4e, byteOfNat n, byteOfNat (n / 2 ^ 8), byteOfNat (n / 2 ^ 16), byteOfNat (n / 2 ^ 24)]

/-- The bytes of one push of chunk `c` in form `f`. -/
def encodePush (f : PushForm) (c : List Byte) : List Byte :=
  pushHeader f c.length ++ c

/-- The form chosen by length tier: 0-75 direct, 76-255 `PUSHDATA1`,
256-65535 `PUSHDATA2`, above `PUSHDATA4`. -/
def tierOf (n : Nat) : PushForm :=
  if n ≤ 75 then .direct
  else if n ≤ 255 then .pushdata1
  else if n ≤ 65535 then .pushdata2
  else .pushdata4

/-- The content-type field `01 01 len(ct) ct`. -/
def contentTypeField (ct : List Byte) : List Byte :=
  [0x01, 0x01, byteOfNat ct.length] ++ ct

/-- The envelope `marker ++ contentTypeField ++ 00 ++ body ++ 68`. -/
def envelope (ct : List Byte) (body : List Byte) : List Byte :=
  inscriptionMark ++ contentTypeField ct ++ [0x00] ++ body ++ [0x68]

/-- The pushes of a list of chunks, each with its form, one after the other. -/
def encodeChunks (chunks : List (PushForm × List Byte)) : List Byte :=
  (chunks.map fun c => encodePush c.1 c.2).flatten

/-- The encoding of a pair `(contentType, payload)` with a single push of the
payload, the form chosen by `tierOf`. -/
def encodeInscription (ct : List Byte) (payload : List Byte) : List Byte :=
  envelope ct (encodePush (tierOf payload.length) payload)

/-- The declared push at offset `p` for an opcode, in the words of the
specification: the width `w` of the length field and the declared length.
Direct push: the opcode itself.  `0x4c`: `raw[p]`.  `0x4d`:
`raw[p] + 256*raw[p+1]`.  `0x4e`:
`raw[p] + 2^8*raw[p+1] + 2^16*raw[p+2] + 2^24*raw[p+3]`. -/
def declaredPush (data : List Byte) (opcode : Byte) (p : Nat) : Option (Nat × Nat) :=
  if 0x01 ≤ opcode.val ∧ opcode.val ≤ 0x4b then some (0, opcode.val)
  else if opcode.val = 0x4c then
    match data[p]? with
    | some b0 => some (1, b0.val)
    | none => none
  else if opcode.val = 0x4d then
    match data[p]?, data[p + 1]? with
    | some b0, some b1 => some (2, b0.val + 256 * b1.val)
    | _, _ => none
  else if opcode.val = 0x4e then
    match data[p]?, data[p + 1]?, data[p + 2]?, data[p + 3]? with
    | some b0, some b1, some b2, some b3 =>
      some (4, b0.val + 2 ^ 8 * b1.val + 2 ^ 16 * b2.val + 2 ^ 24 * b3.val)
    | _, _, _, _ => none
  else none

/-- The envelope without its terminator:
`marker ++ contentTypeField ++ 00 ++ body`. -/
def openEnvelope (ct : List Byte) (body : List Byte) : List Byte :=
  inscriptionMark ++ contentTypeField ct ++ [0x00] ++ body

/-- Sub-ranges `(start, length)` of a buffer listed in order between `lo` and
`hi`: the first starts at or after `lo`, each next one at or after the end of
the one before, and the last ends at or before `hi`.  Such ranges are disjoint
and lie inside `[lo, hi)`. -/
def inOrder : Nat → List (Nat × Nat) → Nat → Bool
  | lo, [], hi => decide (lo ≤ hi)
  | lo, r :: rs, hi => decide (lo ≤ r.1) && inOrder (r.1 + r.2) rs hi

/-- The bytes of the sub-ranges `rs` of `data`, one range after the other. -/
def rangesOf (data : List Byte) (rs : List (Nat × Nat)) : List Byte :=
  (rs.map fun r => (data.drop r.1).take r.2).flatten

/-! # Theorems -/

/-! ## Reading inside the buffer -/

theorem backing_drop_take (raw : Slice) (p n : Nat) (h : p + n ≤ raw.len) :
    (raw.backing.drop p).take n = (raw.data.drop p).take n := by
  unfold Slice.backing Slice.len at *
  rw [List.drop_append_of_le_length (by omega), List.take_append_of_le_length]
  simp; omega

theorem readBytes_inside (raw : Slice) (p n : Nat) (h : p + n ≤ raw.len) :
    readBytes raw n p = .ok ((raw.data.drop p).take n) (p + n) := by
  have hc : p + n ≤ raw.cap := by unfold Slice.cap Slice.len at *; omega
  simp [readBytes, hc, backing_drop_take raw p n h]

theorem readBytes_outside (raw : Slice) (p n : Nat) (h : raw.cap < p + n) :
    readBytes raw n p = .panic p := by
  simp [readBytes]; omega

theorem readByte_inside (raw : Slice) (p : Nat) (b : Byte) (h : raw.data[p]? = some b) :
    readByte raw p = .ok b (p + 1) := by
  have hp : p < raw.data.length := by
    rcases Nat.lt_or_ge p raw.data.length with h' | h'
    · exact h'
    · rw [List.getElem?_eq_none h'] at h; cases h
  have hd : raw.data.drop p = b :: raw.data.drop (p + 1) := by
    rw [List.getElem?_eq_getElem hp] at h
    rw [List.drop_eq_getElem_cons hp]; congr 1; exact Option.some.inj h
  rw [readByte, readBytes_inside raw p 1 (by unfold Slice.len; omega), hd]
  simp [Res.bind]

theorem readByte_ne_err (raw : Slice) (p : Nat) (e : Err) (q : Nat) :
    readByte raw p ≠ .err e q := by
  unfold readByte readBytes
  split_ifs
  · simp only [Res.bind]
    split <;> simp
  · simp [Res.bind]

theorem readBytes_at (raw : Slice) (pre bs rest : List Byte)
    (h : raw.data = pre ++ (bs ++ rest)) :
    readBytes raw bs.length pre.length = .ok bs (pre.length + bs.length) := by
  rw [readBytes_inside raw _ _ (by simp [Slice.len, h]), h]
  simp

theorem readByte_at (raw : Slice) (pre rest : List Byte) (b : Byte)
    (h : raw.data = pre ++ (b :: rest)) :
    readByte raw pre.length = .ok b (pre.length + 1) := by
  apply readByte_inside; rw [h, List.getElem?_append_right (le_refl _)]; simp

/-! ## The marker search -/

theorem stringsIndex_eq_some_iff (substr : List Byte) :
    ∀ (s : List Byte) (i : Nat), stringsIndex s substr = some i ↔
      (substr <+: s.drop i ∧ ∀ j, j < i → ¬ substr <+: s.drop j) := by
  intro s
  induction s with
  | nil =>
    intro i
    by_cases hp : substr <+: []
    · have hb : substr.isPrefixOf [] = true := List.isPrefixOf_iff_prefix.mpr hp
      simp only [stringsIndex, hb, if_true, List.drop_nil]
      constructor
      · intro h
        cases h
        exact ⟨hp, fun j hj => absurd hj (Nat.not_lt_zero j)⟩
      · rintro ⟨-, h2⟩
        rcases Nat.eq_zero_or_pos i with h0 | h0
        · rw [h0]
        · exact absurd hp (h2 0 h0)
    · have hb : ¬ substr.isPrefixOf [] = true := fun h => hp (List.isPrefixOf_iff_prefix.mp h)
      simp only [stringsIndex, hb, List.drop_nil]
      constructor
      · intro h; cases h
      · rintro ⟨h1, -⟩; exact absurd h1 hp
  | cons b t ih =>
    intro i
    by_cases hp : substr <+: b :: t
    · have hb : substr.isPrefixOf (b :: t) = true := List.isPrefixOf_iff_prefix.mpr hp
      simp only [stringsIndex, hb, if_true]
      constructor
      · intro h
        cases h
        exact ⟨by simpa using hp, fun j hj => absurd hj (Nat.not_lt_zero j)⟩
      · rintro ⟨-, h2⟩
        rcases Nat.eq_zero_or_pos i with h0 | h0
        · rw [h0]
        · exact absurd (by simpa using hp) (h2 0 h0)
    · have hb : ¬ substr.isPrefixOf (b :: t) = true :=
        fun h => hp (List.isPrefixOf_iff_prefix.mp h)
      simp only [stringsIndex, hb]
      cases i with
      | zero =>
        constructor
        · intro h
          cases hte : stringsIndex t substr <;> simp [hte] at h
        · rintro ⟨h1, -⟩; exact absurd (by simpa using h1) hp
      | succ k =>
        have hk := ih k
        constructor
        · intro h
          have h' : stringsIndex t substr = some k := by
            cases hte : stringsIndex t substr with
            | none => simp [hte] at h
            | some k' => simp [hte] at h; rw [h]
          obtain ⟨h1, h2⟩ := hk.mp h'
          refine ⟨by simpa using h1, ?_⟩
          intro j hj
          cases j with
          | zero => simpa using hp
          | succ j' => simpa using h2 j' (by omega)
        · rintro ⟨h1, h2⟩
          have h' : stringsIndex t substr = some k := by
            apply hk.mpr
            refine ⟨by simpa using h1, ?_⟩
            intro j hj
            simpa using h2 (j + 1) (by omega)
          simp [h']

theorem stringsIndex_eq_none_iff (substr : List Byte) :
    ∀ (s : List Byte), stringsIndex s substr = none ↔ ∀ i, ¬ substr <+: s.drop i := by
  intro s
  constructor
  · intro h i hi
    have hex : ∃ n, substr <+: s.drop n := ⟨i, hi⟩
    classical
    have hsome := (stringsIndex_eq_some_iff substr s (Nat.find hex)).mpr
      ⟨Nat.find_spec hex, fun j hj => Nat.find_min hex hj⟩
    rw [h] at hsome; cases hsome
  · intro h
    cases hs : stringsIndex s substr with
    | none => rfl
    | some i => exact absurd ((stringsIndex_eq_some_iff substr s i).mp hs).1 (h i)

theorem mark_prefix_iff (t : List Byte) :
    inscriptionMark <+: t ↔ t.take 6 = inscriptionMark := by
  rw [List.prefix_iff_eq_take]
  constructor
  · intro h; exact h.symm
  · intro h; exact h.symm

/-! ## Little-endian length fields and the cases of `readPushdata` -/

theorem drop_of_getElem? (l : List Byte) (p : Nat) (b : Byte) (h : l[p]? = some b) :
    l.drop p = b :: l.drop (p + 1) := by
  have hp : p < l.length := by
    rcases Nat.lt_or_ge p l.length with h' | h'
    · exact h'
    · rw [List.getElem?_eq_none h'] at h; cases h
  rw [List.getElem?_eq_getElem hp] at h
  rw [List.drop_eq_getElem_cons hp]; congr 1; exact Option.some.inj h

theorem or_shiftLeft (a b k : Nat) (h : a < 2 ^ k) : a ||| (b <<< k) = a + 2 ^ k * b := by
  rw [Nat.shiftLeft_eq, Nat.or_comm, Nat.mul_comm b, ← Nat.mul_add_lt_is_or h, Nat.add_comm]

theorem uint16_eq (b0 b1 : Byte) : b0.val ||| (b1.val <<< 8) = b0.val + 256 * b1.val := by
  rw [or_shiftLeft _ _ 8 (by have := b0.isLt; omega)]; norm_num

theorem uint32_eq (b0 b1 b2 b3 : Byte) :
    b0.val ||| (b1.val <<< 8) ||| (b2.val <<< 16) ||| (b3.val <<< 24)
      = b0.val + 2 ^ 8 * b1.val + 2 ^ 16 * b2.val + 2 ^ 24 * b3.val := by
  have h0 := b0.isLt
  have h1 := b1.isLt
  have h2 := b2.isLt
  rw [or_shiftLeft b0.val b1.val 8 (by omega),
    or_shiftLeft _ b2.val 16 (by omega), or_shiftLeft _ b3.val 24 (by omega)]

theorem readPushdata_direct (raw : Slice) (opcode : Byte) (p : Nat)
    (h : 0x01 ≤ opcode.val ∧ opcode.val ≤ 0x4b) :
    readPushdata raw opcode p = readBytes raw opcode.val p := by
  simp only [readPushdata, h, and_self, if_true]

theorem readPushdata_extended (raw : Slice) (opcode : Byte) (p w : Nat)
    (h : numBytesOf opcode.val = some w) :
    readPushdata raw opcode p =
      if p + w > raw.len then .err .truncatedPushData p
      else (readBytes raw w p).bind fun sizeBytes p1 =>
        match sizeOf w sizeBytes with
        | none => .panic p1
        | some size =>
          if p1 + size > raw.len then .err .truncatedPushData p1
          else readBytes raw size p1 := by
  have hnd : ¬ (0x01 ≤ opcode.val ∧ opcode.val ≤ 0x4b) := by
    intro hd
    unfold numBytesOf at h
    split_ifs at h <;> omega
  simp only [readPushdata, hnd, if_false, h]

theorem readPushdata_sized (raw : Slice) (opcode : Byte) (p w n : Nat)
    (h : numBytesOf opcode.val = some w) (hw : p + w ≤ raw.len)
    (hs : sizeOf w ((raw.data.drop p).take w) = some n) (hfit : p + w + n ≤ raw.len) :
    readPushdata raw opcode p = .ok ((raw.data.drop (p + w)).take n) (p + w + n) := by
  rw [readPushdata_extended raw opcode p w h, if_neg (by omega), readBytes_inside raw p w hw]
  simp only [Res.bind, hs]
  rw [if_neg (by omega), readBytes_inside raw (p + w) n hfit]

theorem readContentType_tagged (raw : Slice) (p : Nat) (s : Byte)
    (h0 : raw.data[p]? = some 0x01) (h1 : raw.data[p + 1]? = some 0x01)
    (h2 : raw.data[p + 2]? = some s) (hfit : p + 3 + s.val ≤ raw.len) :
    readContentType raw p = .ok ((raw.data.drop (p + 3)).take s.val) (p + 3 + s.val) := by
  unfold readContentType
  rw [readByte_inside raw p _ h0]
  simp only [Res.bind]
  rw [if_pos (by decide), if_neg (by decide), readByte_inside raw (p + 1) _ h1]
  simp only [Res.bind]
  rw [if_neg (by decide)]
  simp only [Res.bind]
  rw [readByte_inside raw (p + 1 + 1) _ h2]
  simp only [Res.bind]
  rw [readBytes_inside raw (p + 1 + 1 + 1) s.val (by omega)]

theorem readPushdata_invalid_aux (raw : Slice) (opcode : Byte) (p : Nat)
    (h : ¬ (0x01 ≤ opcode.val ∧ opcode.val ≤ 0x4e)) :
    readPushdata raw opcode p = .err .invalidPushOpcode p := by
  have h1 : ¬ (0x01 ≤ opcode.val ∧ opcode.val ≤ 0x4b) := by omega
  have h2 : numBytesOf opcode.val = none := by
    unfold numBytesOf
    split_ifs <;> first | rfl | omega
  simp only [readPushdata, h1, if_false, h2]

/-! ## Reading back what the writing side produced -/

theorem byteOfNat_val (n : Nat) (h : n < 256) : (byteOfNat n).val = n := by
  simp [byteOfNat, Nat.mod_eq_of_lt h]

theorem byteOfNat_val_mod (n : Nat) : (byteOfNat n).val = n % 256 := rfl

theorem payloadLoop_push (raw : Slice) (ct : List Byte) (f : PushForm) (c pre rest : List Byte)
    (fuel : Nat) (data : List Byte) (hlen : c.length ≤ f.maxLen)
    (h : raw.data = pre ++ (encodePush f c ++ rest)) :
    payloadLoop raw ct (fuel + 1) data pre.length
      = payloadLoop raw ct fuel (data ++ c) (pre.length + (encodePush f c).length) := by
  have hl : raw.len = pre.length + ((encodePush f c).length + rest.length) := by
    simp [Slice.len, h]
  cases f with
  | direct =>
    simp only [PushForm.maxLen] at hlen
    simp only [encodePush, pushHeader, List.cons_append, List.nil_append, List.length_cons] at h hl ⊢
    have hv : (byteOfNat c.length).val = c.length := byteOfNat_val _ (by omega)
    have hne : byteOfNat c.length ≠ OP_ENDIF := by
      intro he
      have := congrArg Fin.val he
      rw [hv] at this
      simp [OP_ENDIF] at this
      omega
    rw [payloadLoop, readByte_at raw pre _ _ h]
    simp only [hne, ne_eq, not_false_eq_true, if_true]
    rcases Nat.eq_zero_or_pos c.length with h0 | h0
    · have hc : c = [] := List.length_eq_zero.mp h0
      subst hc
      rw [readPushdata_invalid_aux raw _ _ (by rw [hv]; simp)]
      simp
    · rw [readPushdata_direct raw _ _ (by rw [hv]; omega), hv]
      have h' : raw.data = (pre ++ [byteOfNat c.length]) ++ (c ++ rest) := by simp [h]
      have := readBytes_at raw _ c rest h'
      simp only [List.length_append, List.length_cons, List.length_nil] at this
      rw [this]
      simp only
      congr 1
      omega
  | pushdata1 =>
    simp only [PushForm.maxLen] at hlen
    simp only [encodePush, pushHeader, List.cons_append, List.nil_append, List.length_cons] at h hl ⊢
    rw [payloadLoop, readByte_at raw pre _ _ h]
    simp only [show (0x4c : Byte) ≠ OP_ENDIF by decide, ne_eq, not_false_eq_true, if_true]
    have hd : raw.data.drop (pre.length + 1) = byteOfNat c.length :: (c ++ rest) := by
      rw [h, List.drop_append]; rfl
    have hd2 : raw.data.drop (pre.length + 1 + 1) = c ++ rest := by
      rw [h, Nat.add_assoc, List.drop_append]; rfl
    rw [readPushdata_sized raw 0x4c (pre.length + 1) 1 c.length (by decide) (by omega)
      (by rw [hd]; simp [sizeOf, byteOfNat_val _ (show c.length < 256 by omega)]) (by omega), hd2]
    simp only [List.take_left]
    congr 1
    omega
  | pushdata2 =>
    simp only [PushForm.maxLen] at hlen
    simp only [encodePush, pushHeader, List.cons_append, List.nil_append, List.length_cons] at h hl ⊢
    rw [payloadLoop, readByte_at raw pre _ _ h]
    simp only [show (0x4d : Byte) ≠ OP_ENDIF by decide, ne_eq, not_false_eq_true, if_true]
    have hd : raw.data.drop (pre.length + 1)
        = byteOfNat c.length :: byteOfNat (c.length / 2 ^ 8) :: (c ++ rest) := by
      rw [h, List.drop_append]; rfl
    have hd2 : raw.data.drop (pre.length + 1 + 2) = c ++ rest := by
      rw [h, Nat.add_assoc, List.drop_append]; rfl
    have hsz : sizeOf 2 ((raw.data.drop (pre.length + 1)).take 2) = some c.length := by
      rw [hd]
      simp only [List.take_succ_cons, sizeOf, littleEndianUint16, uint16_eq]
      simp only [byteOfNat_val_mod]
      congr 1
      omega
    rw [readPushdata_sized raw 0x4d (pre.length + 1) 2 c.length (by decide) (by omega)
      hsz (by omega), hd2]
    simp only [List.take_left]
    congr 1
    omega
  | pushdata4 =>
    simp only [PushForm.maxLen] at hlen
    simp only [encodePush, pushHeader, List.cons_append, List.nil_append, List.length_cons] at h hl ⊢
    rw [payloadLoop, readByte_at raw pre _ _ h]
    simp only [show (0x4e : Byte) ≠ OP_ENDIF by decide, ne_eq, not_false_eq_true, if_true]
    have hd : raw.data.drop (pre.length + 1)
        = byteOfNat c.length :: byteOfNat (c.length / 2 ^ 8) :: byteOfNat (c.length / 2 ^ 16)
            :: byteOfNat (c.length / 2 ^ 24) :: (c ++ rest) := by
      rw [h, List.drop_append]; rfl
    have hd2 : raw.data.drop (pre.length + 1 + 4) = c ++ rest := by
      rw [h, Nat.add_assoc, List.drop_append]; rfl
    have hsz : sizeOf 4 ((raw.data.drop (pre.length + 1)).take 4) = some c.length := by
      rw [hd]
      simp only [List.take_succ_cons, sizeOf, littleEndianUint32, uint32_eq]
      simp only [byteOfNat_val_mod]
      congr 1
      omega
    rw [readPushdata_sized raw 0x4e (pre.length + 1) 4 c.length (by decide) (by omega)
      hsz (by omega), hd2]
    simp only [List.take_left]
    congr 1
    omega

theorem encodePush_length_pos (f : PushForm) (c : List Byte) : 1 ≤ (encodePush f c).length := by
  cases f <;> simp [encodePush, pushHeader]

theorem encodeChunks_cons (c : PushForm × List Byte) (cs : List (PushForm × List Byte)) :
    encodeChunks (c :: cs) = encodePush c.1 c.2 ++ encodeChunks cs := by
  simp [encodeChunks]

theorem length_le_encodeChunks (chunks : List (PushForm × List Byte)) :
    chunks.length ≤ (encodeChunks chunks).length := by
  induction chunks with
  | nil => simp
  | cons c cs ih =>
    rw [encodeChunks_cons, List.length_append, List.length_cons]
    have := encodePush_length_pos c.1 c.2
    omega

theorem payloadLoop_chunks (raw : Slice) (ct : List Byte) :
    ∀ (chunks : List (PushForm × List Byte)) (pre rest data : List Byte) (fuel : Nat),
      (∀ c ∈ chunks, c.2.length ≤ c.1.maxLen) →
      raw.data = pre ++ (encodeChunks chunks ++ (OP_ENDIF :: rest)) →
      chunks.length < fuel →
      payloadLoop raw ct fuel data pre.length
        = (.done ct (data ++ (chunks.map Prod.snd).flatten),
            pre.length + (encodeChunks chunks).length + 1) := by
  intro chunks
  induction chunks with
  | nil =>
    intro pre rest data fuel _ h hf
    obtain ⟨fuel, rfl⟩ : ∃ k, fuel = k + 1 := ⟨fuel - 1, by omega⟩
    simp only [encodeChunks, List.map_nil, List.flatten_nil, List.nil_append] at h
    rw [payloadLoop, readByte_at raw pre rest _ h]
    simp [encodeChunks]
  | cons c cs ih =>
    intro pre rest data fuel hwf h hf
    obtain ⟨fuel, rfl⟩ : ∃ k, fuel = k + 1 := ⟨fuel - 1, by omega⟩
    rw [encodeChunks_cons, List.append_assoc] at h
    rw [payloadLoop_push raw ct c.1 c.2 pre _ fuel data (hwf c (List.mem_cons_self _ _)) h]
    have h' : raw.data = (pre ++ encodePush c.1 c.2) ++ (encodeChunks cs ++ (OP_ENDIF :: rest)) := by
      rw [h, List.append_assoc]
    have := ih (pre ++ encodePush c.1 c.2) rest (data ++ c.2) fuel
      (fun x hx => hwf x (List.mem_cons_of_mem _ hx)) h'
      (by simp only [List.length_cons] at hf; omega)
    rw [List.length_append] at this
    rw [this, encodeChunks_cons]
    simp only [List.map_cons, List.flatten_cons, List.append_assoc, List.length_append]
    congr 1
    omega

theorem getInitialPosition_envelope (ct body spare : List Byte) :
    getInitialPosition ⟨envelope ct body, spare⟩ = (6, none) := by
  have h : stringsIndex (envelope ct body) inscriptionMark = some 0 := by
    apply (stringsIndex_eq_some_iff inscriptionMark _ 0).mpr
    refine ⟨?_, fun j hj => absurd hj (Nat.not_lt_zero j)⟩
    simp only [List.drop_zero, envelope, List.append_assoc]
    exact List.prefix_append _ _
  simp only [getInitialPosition, h]
  rfl

theorem decode_envelope (ct : List Byte) (chunks : List (PushForm × List Byte))
    (spare : List Byte) (pointer0 : Nat) (hct : ct.length ≤ 255)
    (hwf : ∀ c ∈ chunks, c.2.length ≤ c.1.maxLen) :
    decode ⟨envelope ct (encodeChunks chunks), spare⟩ pointer0
      = (.done ct (chunks.map Prod.snd).flatten, (envelope ct (encodeChunks chunks)).length) := by
  have hdata : envelope ct (encodeChunks chunks)
      = inscriptionMark ++ (0x01 :: 0x01 :: byteOfNat ct.length ::
          (ct ++ (0x00 :: (encodeChunks chunks ++ [OP_ENDIF])))) := by
    simp [envelope, contentTypeField, OP_ENDIF]
  have hlen : (envelope ct (encodeChunks chunks)).length
      = 6 + 3 + ct.length + 1 + (encodeChunks chunks).length + 1 := by
    rw [hdata]; simp [inscriptionMark]; omega
  have hv : (byteOfNat ct.length).val = ct.length := byteOfNat_val _ (by omega)
  have hct' : readContentType ⟨envelope ct (encodeChunks chunks), spare⟩ 6
      = .ok ct (6 + 3 + ct.length) := by
    have := readContentType_tagged ⟨envelope ct (encodeChunks chunks), spare⟩ 6
      (byteOfNat ct.length) (by rw [hdata]; rfl) (by rw [hdata]; rfl)
      (by rw [hdata]; simp [inscriptionMark])
      (by simp only [Slice.len, hlen, hv]; omega)
    rw [this, hv]
    congr 1
    rw [hdata]
    show (List.drop 9 (inscriptionMark ++ _)).take ct.length = ct
    simp [inscriptionMark]
  unfold decode
  simp only [getInitialPosition_envelope, hct']
  unfold decodeBody
  have hsep : (⟨envelope ct (encodeChunks chunks), spare⟩ : Slice).data
      = (inscriptionMark ++ [0x01, 0x01, byteOfNat ct.length] ++ ct)
          ++ (0x00 :: (encodeChunks chunks ++ [OP_ENDIF])) := by
    simp [hdata]
  have hsl : (inscriptionMark ++ [0x01, 0x01, byteOfNat ct.length] ++ ct).length
      = 6 + 3 + ct.length := by simp [inscriptionMark]; omega
  have hb := readByte_at _ _ _ _ hsep
  rw [hsl] at hb
  rw [hb]
  simp only [ne_eq, not_true_eq_false, if_false]
  have hloop : (⟨envelope ct (encodeChunks chunks), spare⟩ : Slice).data
      = (inscriptionMark ++ [0x01, 0x01, byteOfNat ct.length] ++ ct ++ [0x00])
          ++ (encodeChunks chunks ++ (OP_ENDIF :: [])) := by
    simp [hdata]
  have hll : (inscriptionMark ++ [0x01, 0x01, byteOfNat ct.length] ++ ct ++ [0x00]).length
      = 6 + 3 + ct.length + 1 := by simp [inscriptionMark]; omega
  have := payloadLoop_chunks _ ct chunks _ [] [] (Slice.cap ⟨envelope ct (encodeChunks chunks), spare⟩ + 1)
    hwf hloop (by
      have := length_le_encodeChunks chunks
      simp only [Slice.cap, hlen]
      omega)
  rw [hll] at this
  rw [this, hlen]
  simp

theorem tierOf_fits (n : Nat) (h : n < 2 ^ 32) : n ≤ (tierOf n).maxLen := by
  unfold tierOf
  split_ifs <;> simp only [PushForm.maxLen] <;> omega

/-! ## Pointer bounds and fuel -/

theorem readBytes_pointer (raw : Slice) (n p : Nat) (hp : p ≤ raw.cap) :
    p ≤ (readBytes raw n p).pointer ∧ (readBytes raw n p).pointer ≤ raw.cap := by
  unfold readBytes
  split_ifs <;> simp only [Res.pointer] <;> omega

theorem readByte_ok (raw : Slice) (p : Nat) (b : Byte) (p1 : Nat)
    (h : readByte raw p = .ok b p1) : p1 = p + 1 ∧ p1 ≤ raw.cap := by
  unfold readByte readBytes at h
  split_ifs at h with hc
  · simp only [Res.bind] at h
    split at h
    · cases h; exact ⟨rfl, hc⟩
    · cases h
  · cases h

theorem readPushdata_pointer (raw : Slice) (opcode : Byte) (p : Nat) (hp : p ≤ raw.cap) :
    p ≤ (readPushdata raw opcode p).pointer ∧ (readPushdata raw opcode p).pointer ≤ raw.cap := by
  unfold readPushdata
  simp only
  split_ifs with h1
  · exact readBytes_pointer raw _ p hp
  · split
    · simp only [Res.pointer]; omega
    · rename_i w _
      split_ifs with h2
      · simp only [Res.pointer]; omega
      · have hw : p + w ≤ raw.cap := by
          have : raw.len ≤ raw.cap := by unfold Slice.len Slice.cap; omega
          omega
        simp only [readBytes, hw, if_true, Res.bind]
        split
        · simp only [Res.pointer]; omega
        · split_ifs <;> simp only [Res.pointer] <;> omega

theorem payloadLoop_fuel (raw : Slice) (ct : List Byte) :
    ∀ (fuel : Nat) (data : List Byte) (p : Nat), raw.cap + 1 ≤ fuel + p → 1 ≤ fuel →
      (payloadLoop raw ct fuel data p).1 ≠ .outOfFuel := by
  intro fuel
  induction fuel with
  | zero => intro _ _ _ h; omega
  | succ fuel ih =>
    intro data p hf _
    rw [payloadLoop]
    cases hb : readByte raw p with
    | panic q => simp
    | err e q => simp
    | ok opcode p1 =>
      obtain ⟨rfl, hp1⟩ := readByte_ok raw p opcode p1 hb
      simp only
      split_ifs with hop
      · have hptr := readPushdata_pointer raw opcode (p + 1) hp1
        cases hr : readPushdata raw opcode (p + 1) with
        | panic q => simp
        | err e q =>
          rw [hr] at hptr
          simp only [Res.pointer] at hptr
          exact ih data q (by omega) (by omega)
        | ok chunk q =>
          rw [hr] at hptr
          simp only [Res.pointer] at hptr
          exact ih (data ++ chunk) q (by omega) (by omega)
      · simp

theorem decode_fuel (raw : Slice) (pointer0 : Nat) : (decode raw pointer0).1 ≠ .outOfFuel := by
  have hbody : ∀ ct p, (decodeBody raw ct p).1 ≠ .outOfFuel := by
    intro ct p
    unfold decodeBody
    cases hb : readByte raw p with
    | panic q => simp
    | err e q => simp
    | ok sep p1 =>
      simp only
      split_ifs
      · simp
      · exact payloadLoop_fuel raw ct _ _ _ (by omega) (by omega)
  unfold decode
  simp only
  cases readContentType raw (getInitialPosition raw).1 with
  | panic q => simp
  | err e q => exact hbody _ _
  | ok v q => exact hbody _ _

/-- A direct push never returns an error: whatever the buffer holds, the result
is the result of `readBytes`, a normal return or a panic. -/
theorem readPushdata_direct_never_err (raw : Slice) (opcode : Byte) (p : Nat)
    (h : 0x01 ≤ opcode.val ∧ opcode.val ≤ 0x4b) (e : Err) (q : Nat) :
    readPushdata raw opcode p ≠ .err e q := by
  rw [readPushdata_direct raw opcode p h]
  unfold readBytes
  split_ifs <;> simp

/-- An extended push whose length field fits and whose declared length does not
returns the error "Invalid data length", with the pointer after the length
field. -/
theorem readPushdata_extended_truncated (raw : Slice) (opcode : Byte) (p w n : Nat)
    (h : numBytesOf opcode.val = some w) (hw : p + w ≤ raw.len)
    (hs : sizeOf w ((raw.data.drop p).take w) = some n) (hover : raw.len < p + w + n) :
    readPushdata raw opcode p = .err .truncatedPushData (p + w) := by
  rw [readPushdata_extended raw opcode p w h, if_neg (by omega), readBytes_inside raw p w hw]
  simp only [Res.bind, hs]
  rw [if_pos (by omega)]

/-! ## Failures of the readers -/

theorem readBytes_ne_err (raw : Slice) (n p : Nat) (e : Err) (q : Nat) :
    readBytes raw n p ≠ .err e q := by
  unfold readBytes
  split_ifs <;> simp

theorem readContentType_bad_first (raw : Slice) (p : Nat) (b0 : Byte)
    (h0 : raw.data[p]? = some b0) (hne : b0 ≠ OP_1) (h1 : b0 ≠ 0x01) :
    readContentType raw p = .err .invalidContentTypePrefix (p + 1) := by
  unfold readContentType
  rw [readByte_inside raw p _ h0]
  simp only [Res.bind]
  rw [if_pos hne, if_pos h1]

theorem readContentType_bad_second (raw : Slice) (p : Nat) (b1 : Byte)
    (h0 : raw.data[p]? = some 0x01) (h1 : raw.data[p + 1]? = some b1) (hb : b1 ≠ 0x01) :
    readContentType raw p = .err .invalidContentTypePrefix (p + 2) := by
  unfold readContentType
  rw [readByte_inside raw p _ h0]
  simp only [Res.bind]
  rw [if_pos (by decide), if_neg (by decide), readByte_inside raw (p + 1) _ h1]
  simp only [Res.bind]
  rw [if_pos hb]

theorem readContentType_good_tag (raw : Slice) (p : Nat)
    (h0 : raw.data[p]? = some 0x01) (h1 : raw.data[p + 1]? = some 0x01) :
    readContentType raw p
      = (readByte raw (p + 2)).bind fun size p3 => readBytes raw size.val p3 := by
  unfold readContentType
  rw [readByte_inside raw p _ h0]
  simp only [Res.bind]
  rw [if_pos (by decide), if_neg (by decide), readByte_inside raw (p + 1) _ h1]
  simp only [Res.bind]
  rw [if_neg (by decide)]

theorem readSized_ne_err (raw : Slice) (p : Nat) (e : Err) (q : Nat) :
    ((readByte raw p).bind fun size p3 => readBytes raw size.val p3) ≠ .err e q := by
  cases hb : readByte raw p with
  | ok size p3 => simp only [Res.bind]; exact readBytes_ne_err raw _ _ e q
  | err e' q' => exact absurd hb (readByte_ne_err raw p e' q')
  | panic q' => simp [Res.bind]

/-- The declared push of an extended form, in terms of the second `switch` of
`readPushdata`. -/
theorem declaredPush_extended (data : List Byte) (opcode : Byte) (p w w' n : Nat)
    (hw : numBytesOf opcode.val = some w) (hd : declaredPush data opcode p = some (w', n)) :
    w' = w ∧ sizeOf w ((data.drop p).take w) = some n := by
  unfold numBytesOf at hw
  unfold declaredPush at hd
  have hnd : ¬ (0x01 ≤ opcode.val ∧ opcode.val ≤ 0x4b) := by
    intro hd'
    split_ifs at hw <;> omega
  rw [if_neg hnd] at hd
  split_ifs at hw hd with h1 h2 h3
  · cases hw
    cases h0 : data[p]? with
    | none => simp [h0] at hd
    | some b0 =>
      simp only [h0, Option.some.injEq, Prod.mk.injEq] at hd
      obtain ⟨rfl, rfl⟩ := hd
      refine ⟨rfl, ?_⟩
      rw [drop_of_getElem? _ _ _ h0]
      rfl
  · cases hw
    cases h0 : data[p]? with
    | none => simp [h0] at hd
    | some b0 =>
      cases h1' : data[p + 1]? with
      | none => simp [h0, h1'] at hd
      | some b1 =>
        simp only [h0, h1', Option.some.injEq, Prod.mk.injEq] at hd
        obtain ⟨rfl, rfl⟩ := hd
        refine ⟨rfl, ?_⟩
        rw [drop_of_getElem? _ _ _ h0, drop_of_getElem? _ _ _ h1']
        simp only [List.take_succ_cons, sizeOf, littleEndianUint16, uint16_eq]
  · cases hw
    cases h0 : data[p]? with
    | none => simp [h0] at hd
    | some b0 =>
      cases h1' : data[p + 1]? with
      | none => simp [h0, h1'] at hd
      | some b1 =>
        cases h2' : data[p + 2]? with
        | none => simp [h0, h1', h2'] at hd
        | some b2 =>
          cases h3' : data[p + 3]? with
          | none => simp [h0, h1', h2', h3'] at hd
          | some b3 =>
            simp only [h0, h1', h2', h3', Option.some.injEq, Prod.mk.injEq] at hd
            obtain ⟨rfl, rfl⟩ := hd
            refine ⟨rfl, ?_⟩
            rw [drop_of_getElem? _ _ _ h0, drop_of_getElem? _ _ _ h1',
              drop_of_getElem? _ _ _ h2', drop_of_getElem? _ _ _ h3']
            simp only [List.take_succ_cons, sizeOf, littleEndianUint32, uint32_eq]

theorem readPushdata_field_missing (raw : Slice) (opcode : Byte) (p w : Nat)
    (h : numBytesOf opcode.val = some w) (hover : raw.len < p + w) :
    readPushdata raw opcode p = .err .truncatedPushData p := by
  rw [readPushdata_extended raw opcode p w h, if_pos (by omega)]

/-! ## The pointer stays within the capacity -/

theorem len_le_cap (raw : Slice) : raw.len ≤ raw.cap := by
  unfold Slice.len Slice.cap; omega

theorem readByte_pointer (raw : Slice) (p : Nat) (hp : p ≤ raw.cap) :
    p ≤ (readByte raw p).pointer ∧ (readByte raw p).pointer ≤ raw.cap := by
  unfold readByte readBytes
  split_ifs with hc
  · simp only [Res.bind]
    split <;> simp only [Res.pointer] <;> omega
  · simp only [Res.bind, Res.pointer]; omega

theorem bind_pointer {α β : Type} (r : Res α) (f : α → Nat → Res β) (lo hi : Nat)
    (hr : lo ≤ r.pointer ∧ r.pointer ≤ hi)
    (hf : ∀ v q, lo ≤ q → q ≤ hi → lo ≤ (f v q).pointer ∧ (f v q).pointer ≤ hi) :
    lo ≤ (r.bind f).pointer ∧ (r.bind f).pointer ≤ hi := by
  cases r with
  | ok v q => exact hf v q hr.1 hr.2
  | err e q => exact hr
  | panic q => exact hr

theorem readContentType_pointer (raw : Slice) (p : Nat) (hp : p ≤ raw.cap) :
    p ≤ (readContentType raw p).pointer ∧ (readContentType raw p).pointer ≤ raw.cap := by
  unfold readContentType
  apply bind_pointer _ _ p raw.cap (readByte_pointer raw p hp)
  intro b p1 h1 h1'
  apply bind_pointer _ _ p raw.cap
  · split_ifs
    · simp only [Res.pointer]; omega
    · apply bind_pointer _ _ p raw.cap
      · have := readByte_pointer raw p1 h1'
        omega
      · intro b2 p2 h2 h2'
        split_ifs <;> simp only [Res.pointer] <;> omega
    · simp only [Res.pointer]; omega
  · intro _ q hq hq'
    apply bind_pointer _ _ p raw.cap
    · have := readByte_pointer raw q hq'
      omega
    · intro size p3 h3 h3'
      have := readBytes_pointer raw size.val p3 h3'
      omega

theorem payloadLoop_pointer (raw : Slice) (ct : List Byte) :
    ∀ (fuel : Nat) (data : List Byte) (p : Nat), p ≤ raw.cap →
      p ≤ (payloadLoop raw ct fuel data p).2 ∧ (payloadLoop raw ct fuel data p).2 ≤ raw.cap := by
  intro fuel
  induction fuel with
  | zero => intro data p hp; simp only [payloadLoop]; omega
  | succ fuel ih =>
    intro data p hp
    rw [payloadLoop]
    have hb := readByte_pointer raw p hp
    cases hr : readByte raw p with
    | panic q => rw [hr] at hb; simpa [Res.pointer] using hb
    | err e q => rw [hr] at hb; simpa [Res.pointer] using hb
    | ok opcode p1 =>
      rw [hr] at hb
      simp only [Res.pointer] at hb
      simp only
      split_ifs with hop
      · have hpd := readPushdata_pointer raw opcode p1 hb.2
        cases hr2 : readPushdata raw opcode p1 with
        | panic q => rw [hr2] at hpd; simp only [Res.pointer] at hpd ⊢; omega
        | err e q =>
          rw [hr2] at hpd
          simp only [Res.pointer] at hpd
          have := ih data q hpd.2
          simp only
          omega
        | ok chunk q =>
          rw [hr2] at hpd
          simp only [Res.pointer] at hpd
          have := ih (data ++ chunk) q hpd.2
          simp only
          omega
      · simp only; omega

theorem decodeBody_pointer (raw : Slice) (ct : List Byte) (p : Nat) (hp : p ≤ raw.cap) :
    p ≤ (decodeBody raw ct p).2 ∧ (decodeBody raw ct p).2 ≤ raw.cap := by
  unfold decodeBody
  have hb := readByte_pointer raw p hp
  cases hr : readByte raw p with
  | panic q => rw [hr] at hb; simpa [Res.pointer] using hb
  | err e q => rw [hr] at hb; simpa [Res.pointer] using hb
  | ok sep p1 =>
    rw [hr] at hb
    simp only [Res.pointer] at hb
    simp only
    split_ifs
    · simp only; omega
    · have := payloadLoop_pointer raw ct (raw.cap + 1) [] p1 hb.2
      omega

theorem getInitialPosition_le_len (raw : Slice) : (getInitialPosition raw).1 ≤ raw.len := by
  unfold getInitialPosition
  cases hs : stringsIndex raw.data inscriptionMark with
  | none => simp
  | some i =>
    have h1 := ((stringsIndex_eq_some_iff inscriptionMark raw.data i).mp hs).1
    have hl := h1.length_le
    simp only [List.length_drop, inscriptionMark, List.length_cons, List.length_nil] at hl
    simp only [inscriptionMark, List.length_cons, List.length_nil, Slice.len]
    omega

theorem decode_pointer (raw : Slice) (pointer0 : Nat) : (decode raw pointer0).2 ≤ raw.cap := by
  have h0 : (getInitialPosition raw).1 ≤ raw.cap :=
    Nat.le_trans (getInitialPosition_le_len raw) (len_le_cap raw)
  have hct := readContentType_pointer raw _ h0
  unfold decode
  simp only
  cases hr : readContentType raw (getInitialPosition raw).1 with
  | panic q => rw [hr] at hct; simpa [Res.pointer] using hct.2
  | err e q =>
    rw [hr] at hct
    simp only [Res.pointer] at hct
    exact (decodeBody_pointer raw [] q hct.2).2
  | ok ct q =>
    rw [hr] at hct
    simp only [Res.pointer] at hct
    exact (decodeBody_pointer raw ct q hct.2).2

/-! ## The number of rounds -/

theorem payloadLoop_more_fuel (raw : Slice) (ct : List Byte) :
    ∀ (fuel k : Nat) (data : List Byte) (p : Nat),
      (payloadLoop raw ct fuel data p).1 ≠ .outOfFuel →
      payloadLoop raw ct (fuel + k) data p = payloadLoop raw ct fuel data p := by
  intro fuel
  induction fuel with
  | zero => intro k data p h; simp [payloadLoop] at h
  | succ fuel ih =>
    intro k data p h
    rw [show fuel + 1 + k = (fuel + k) + 1 by omega]
    rw [payloadLoop] at h
    rw [payloadLoop, payloadLoop]
    cases hr : readByte raw p with
    | panic q => simp
    | err e q => simp
    | ok opcode p1 =>
      rw [hr] at h
      simp only at h ⊢
      split_ifs at h ⊢ with hop
      · cases hr2 : readPushdata raw opcode p1 with
        | panic q => simp
        | err e q =>
          rw [hr2] at h
          exact ih k data q h
        | ok chunk q =>
          rw [hr2] at h
          exact ih k (data ++ chunk) q h
      · rfl

theorem round_advances (raw : Slice) (p : Nat) (b opcode : Byte) (p1 : Nat)
    (h : readByte raw p = .ok b p1) :
    p1 = p + 1 ∧ p + 1 ≤ (readPushdata raw opcode p1).pointer := by
  obtain ⟨rfl, hc⟩ := readByte_ok raw p b p1 h
  exact ⟨rfl, (readPushdata_pointer raw opcode (p + 1) hc).1⟩

/-! ## Envelopes that end early -/

theorem getInitialPosition_marker_first (rest spare : List Byte) :
    getInitialPosition ⟨inscriptionMark ++ rest, spare⟩ = (6, none) := by
  have h : stringsIndex (inscriptionMark ++ rest) inscriptionMark = some 0 := by
    apply (stringsIndex_eq_some_iff inscriptionMark _ 0).mpr
    refine ⟨?_, fun j hj => absurd hj (Nat.not_lt_zero j)⟩
    simp only [List.drop_zero]
    exact List.prefix_append _ _
  simp only [getInitialPosition, h]
  rfl

/-- After the marker, the content-type field and the separator, `decode` is the
payload loop entered behind the separator. -/
theorem decode_framed (ct rest spare : List Byte) (pointer0 : Nat) (hct : ct.length ≤ 255) :
    decode ⟨inscriptionMark ++ contentTypeField ct ++ [0x00] ++ rest, spare⟩ pointer0
      = payloadLoop ⟨inscriptionMark ++ contentTypeField ct ++ [0x00] ++ rest, spare⟩ ct
          ((inscriptionMark ++ contentTypeField ct ++ [0x00] ++ rest).length + spare.length + 1)
          [] (10 + ct.length) := by
  have hdata : inscriptionMark ++ contentTypeField ct ++ [0x00] ++ rest
      = inscriptionMark ++ (0x01 :: 0x01 :: byteOfNat ct.length ::
          (ct ++ (0x00 :: rest))) := by
    simp [contentTypeField]
  rw [hdata]
  generalize hraw : (⟨inscriptionMark ++ (0x01 :: 0x01 :: byteOfNat ct.length ::
          (ct ++ (0x00 :: rest))), spare⟩ : Slice) = raw
  have hd : raw.data = inscriptionMark ++ (0x01 :: 0x01 :: byteOfNat ct.length ::
          (ct ++ (0x00 :: rest))) := by rw [← hraw]
  have hlen : raw.len = 6 + 3 + ct.length + 1 + rest.length := by
    simp only [Slice.len, hd]; simp [inscriptionMark]; omega
  have hv : (byteOfNat ct.length).val = ct.length := byteOfNat_val _ (by omega)
  have hpos : getInitialPosition raw = (6, none) := by
    rw [← hraw]; exact getInitialPosition_marker_first _ _
  have hct' : readContentType raw 6 = .ok ct (6 + 3 + ct.length) := by
    have := readContentType_tagged raw 6
      (byteOfNat ct.length) (by rw [hd]; rfl) (by rw [hd]; rfl)
      (by rw [hd]; simp [inscriptionMark])
      (by rw [hlen, hv]; omega)
    rw [this, hv]
    congr 1
    rw [hd]
    show (List.drop 9 (inscriptionMark ++ _)).take ct.length = ct
    simp [inscriptionMark]
  unfold decode
  simp only [hpos, hct']
  unfold decodeBody
  have hsep : raw.data
      = (inscriptionMark ++ [0x01, 0x01, byteOfNat ct.length] ++ ct) ++ (0x00 :: rest) := by
    simp [hd]
  have hsl : (inscriptionMark ++ [0x01, 0x01, byteOfNat ct.length] ++ ct).length
      = 6 + 3 + ct.length := by simp [inscriptionMark]; omega
  have hb := readByte_at _ _ _ _ hsep
  rw [hsl] at hb
  rw [hb]
  simp only [ne_eq, not_true_eq_false, if_false]
  have hcap : raw.cap = (inscriptionMark ++ (0x01 :: 0x01 :: byteOfNat ct.length ::
          (ct ++ (0x00 :: rest)))).length + spare.length := by
    rw [← hraw]; rfl
  rw [hcap]
  congr 1
  omega

/-- Reading through a list of pushes costs one round each and appends the
chunks. -/
theorem payloadLoop_run_chunks (raw : Slice) (ct : List Byte) :
    ∀ (chunks : List (PushForm × List Byte)) (pre rest data : List Byte) (fuel : Nat),
      (∀ c ∈ chunks, c.2.length ≤ c.1.maxLen) →
      raw.data = pre ++ (encodeChunks chunks ++ rest) →
      payloadLoop raw ct (fuel + chunks.length) data pre.length
        = payloadLoop raw ct fuel (data ++ (chunks.map Prod.snd).flatten)
            (pre.length + (encodeChunks chunks).length) := by
  intro chunks
  induction chunks with
  | nil =>
    intro pre rest data fuel _ _
    simp [encodeChunks]
  | cons c cs ih =>
    intro pre rest data fuel hwf h
    rw [encodeChunks_cons, List.append_assoc] at h
    rw [List.length_cons, ← Nat.add_assoc,
      payloadLoop_push raw ct c.1 c.2 pre _ (fuel + cs.length) data
        (hwf c (List.mem_cons_self _ _)) h]
    have h' : raw.data = (pre ++ encodePush c.1 c.2) ++ (encodeChunks cs ++ rest) := by
      rw [h, List.append_assoc]
    have := ih (pre ++ encodePush c.1 c.2) rest (data ++ c.2) fuel
      (fun x hx => hwf x (List.mem_cons_of_mem _ hx)) h'
    rw [List.length_append] at this
    rw [this, encodeChunks_cons]
    simp only [List.map_cons, List.flatten_cons, List.append_assoc, List.length_append]
    congr 1
    omega

/-! ## What a normal end of the loop says about the buffer -/

theorem inOrder_le : ∀ (rs : List (Nat × Nat)) (lo hi : Nat), inOrder lo rs hi = true → lo ≤ hi := by
  intro rs
  induction rs with
  | nil => intro lo hi h; simpa [inOrder] using h
  | cons r rs ih =>
    intro lo hi h
    simp only [inOrder, Bool.and_eq_true, decide_eq_true_eq] at h
    have := ih _ _ h.2
    omega

theorem inOrder_widen : ∀ (rs : List (Nat × Nat)) (lo hi lo' hi' : Nat),
    lo' ≤ lo → hi ≤ hi' → inOrder lo rs hi = true → inOrder lo' rs hi' = true := by
  intro rs
  induction rs with
  | nil =>
    intro lo hi lo' hi' h1 h2 h
    simp only [inOrder, decide_eq_true_eq] at h ⊢
    omega
  | cons r rs ih =>
    intro lo hi lo' hi' h1 h2 h
    simp only [inOrder, Bool.and_eq_true, decide_eq_true_eq] at h ⊢
    exact ⟨by omega, ih _ _ _ _ (Nat.le_refl _) h2 h.2⟩

theorem rangesOf_cons (l : List Byte) (r : Nat × Nat) (rs : List (Nat × Nat)) :
    rangesOf l (r :: rs) = (l.drop r.1).take r.2 ++ rangesOf l rs := by
  simp [rangesOf]

theorem rangesOf_length : ∀ (rs : List (Nat × Nat)) (l : List Byte) (lo hi : Nat),
    inOrder lo rs hi = true → lo + (rangesOf l rs).length ≤ hi := by
  intro rs
  induction rs with
  | nil => intro l lo hi h; simpa [inOrder, rangesOf] using h
  | cons r rs ih =>
    intro l lo hi h
    simp only [inOrder, Bool.and_eq_true, decide_eq_true_eq] at h
    have h1 := ih l _ _ h.2
    rw [rangesOf_cons, List.length_append]
    have h2 : ((l.drop r.1).take r.2).length ≤ r.2 := List.length_take_le _ _
    omega

theorem rangesOf_backing : ∀ (rs : List (Nat × Nat)) (raw : Slice) (lo : Nat),
    inOrder lo rs raw.len = true → rangesOf raw.backing rs = rangesOf raw.data rs := by
  intro rs
  induction rs with
  | nil => intro raw lo _; rfl
  | cons r rs ih =>
    intro raw lo h
    simp only [inOrder, Bool.and_eq_true, decide_eq_true_eq] at h
    rw [rangesOf_cons, rangesOf_cons, ih raw _ h.2,
      backing_drop_take raw r.1 r.2 (inOrder_le _ _ _ h.2)]

theorem readBytes_ok (raw : Slice) (n p : Nat) (v : List Byte) (q : Nat)
    (h : readBytes raw n p = .ok v q) :
    q = p + n ∧ q ≤ raw.cap ∧ v = (raw.backing.drop p).take n ∧ v.length = n := by
  unfold readBytes at h
  split_ifs at h with hc
  simp only [Res.ok.injEq] at h
  obtain ⟨rfl, rfl⟩ := h
  refine ⟨rfl, hc, rfl, ?_⟩
  simp only [List.length_take, List.length_drop, Slice.backing, List.length_append]
  unfold Slice.cap at hc
  omega

theorem readByte_ok_byte (raw : Slice) (p : Nat) (b : Byte) (p1 : Nat)
    (h : readByte raw p = .ok b p1) : raw.backing[p]? = some b := by
  unfold readByte at h
  cases hr : readBytes raw 1 p with
  | panic q => rw [hr] at h; simp [Res.bind] at h
  | err e q => rw [hr] at h; simp [Res.bind] at h
  | ok v q =>
    rw [hr] at h
    obtain ⟨-, -, hv, -⟩ := readBytes_ok raw 1 p v q hr
    simp only [Res.bind] at h
    cases v with
    | nil => simp at h
    | cons b' t =>
      simp only [Res.ok.injEq] at h
      obtain ⟨rfl, -⟩ := h
      have hh : ((raw.backing.drop p).take 1).head? = some b' := by rw [← hv]; rfl
      rw [List.head?_take, if_neg (by decide), List.head?_drop] at hh
      exact hh

/-- What `readPushdata` returns without error is a sub-range of the backing
array that starts at or after the pointer and ends where the pointer is left. -/
theorem readPushdata_ok (raw : Slice) (opcode : Byte) (p : Nat) (chunk : List Byte) (q : Nat)
    (h : readPushdata raw opcode p = .ok chunk q) :
    ∃ a, p ≤ a ∧ a + chunk.length = q ∧ q ≤ raw.cap ∧
      chunk = (raw.backing.drop a).take chunk.length := by
  unfold readPushdata at h
  simp only at h
  split_ifs at h with h1
  · obtain ⟨hq, hc, hv, hl⟩ := readBytes_ok raw _ p chunk q h
    exact ⟨p, Nat.le_refl _, by omega, hc, by rw [hl]; exact hv⟩
  · split at h
    · cases h
    · rename_i w _
      split_ifs at h with h2
      cases hr : readBytes raw w p with
      | panic q' => rw [hr] at h; simp [Res.bind] at h
      | err e q' => rw [hr] at h; simp [Res.bind] at h
      | ok sizeBytes p1 =>
        rw [hr] at h
        obtain ⟨hp1, -, -, -⟩ := readBytes_ok raw w p sizeBytes p1 hr
        simp only [Res.bind] at h
        split at h
        · cases h
        · split_ifs at h with h3
          obtain ⟨hq, hc, hv, hl⟩ := readBytes_ok raw _ p1 chunk q h
          exact ⟨p1, by omega, by omega, hc, by rw [hl]; exact hv⟩

/-- What `readContentType` returns without error is a sub-range of the backing
array that starts after the pointer and ends where the pointer is left. -/
theorem readContentType_ok (raw : Slice) (p : Nat) (ct : List Byte) (q : Nat)
    (h : readContentType raw p = .ok ct q) :
    ∃ a, p ≤ a ∧ a + ct.length = q ∧ q ≤ raw.cap ∧
      ct = (raw.backing.drop a).take ct.length := by
  unfold readContentType at h
  cases hr1 : readByte raw p with
  | panic q' => rw [hr1] at h; simp [Res.bind] at h
  | err e q' => rw [hr1] at h; simp [Res.bind] at h
  | ok b p1 =>
    rw [hr1] at h
    obtain ⟨hp1, -⟩ := readByte_ok raw p b p1 hr1
    simp only [Res.bind] at h
    have key : ∀ (p2 : Nat), p ≤ p2 →
        ((readByte raw p2).bind fun size p3 => readBytes raw size.val p3) = .ok ct q →
        ∃ a, p ≤ a ∧ a + ct.length = q ∧ q ≤ raw.cap ∧
          ct = (raw.backing.drop a).take ct.length := by
      intro p2 hp2 hk
      cases hr3 : readByte raw p2 with
      | panic q' => rw [hr3] at hk; simp [Res.bind] at hk
      | err e q' => rw [hr3] at hk; simp [Res.bind] at hk
      | ok size p3 =>
        rw [hr3] at hk
        obtain ⟨hp3, -⟩ := readByte_ok raw p2 size p3 hr3
        simp only [Res.bind] at hk
        obtain ⟨hq, hc, hv, hl⟩ := readBytes_ok raw _ p3 ct q hk
        exact ⟨p3, by omega, by omega, hc, by rw [hl]; exact hv⟩
    split_ifs at h with hb1 hb2
    · cases hr2 : readByte raw p1 with
      | panic q' => rw [hr2] at h; simp [Res.bind] at h
      | err e q' => rw [hr2] at h; simp [Res.bind] at h
      | ok b2 p2 =>
        rw [hr2] at h
        obtain ⟨hp2, -⟩ := readByte_ok raw p1 b2 p2 hr2
        simp only [Res.bind] at h
        split_ifs at h with hb3
        exact key p2 (by omega) h
    · exact key p1 (by omega) h

/-- A loop that ends normally has appended sub-ranges of the backing array,
in order, between the offset where it was entered and the terminator it read
last. -/
theorem payloadLoop_done (raw : Slice) (ct : List Byte) :
    ∀ (fuel : Nat) (data : List Byte) (p : Nat) (ct' payload : List Byte) (q : Nat),
      payloadLoop raw ct fuel data p = (.done ct' payload, q) →
      ct' = ct ∧ 1 ≤ q ∧ q ≤ raw.cap ∧ raw.backing[q - 1]? = some OP_ENDIF ∧
      ∃ rs, payload = data ++ rangesOf raw.backing rs ∧ inOrder p rs (q - 1) = true := by
  intro fuel
  induction fuel with
  | zero => intro data p ct' payload q h; simp [payloadLoop] at h
  | succ fuel ih =>
    intro data p ct' payload q h
    rw [payloadLoop] at h
    cases hr : readByte raw p with
    | panic q' => rw [hr] at h; simp at h
    | err e q' => rw [hr] at h; simp at h
    | ok opcode p1 =>
      rw [hr] at h
      obtain ⟨rfl, hc1⟩ := readByte_ok raw p opcode _ hr
      have hbyte := readByte_ok_byte raw p opcode _ hr
      simp only at h
      split_ifs at h with hop
      · cases hr2 : readPushdata raw opcode (p + 1) with
        | panic q' => rw [hr2] at h; simp at h
        | err e q' =>
          rw [hr2] at h
          have hptr := readPushdata_pointer raw opcode (p + 1) hc1
          rw [hr2] at hptr
          simp only [Res.pointer] at hptr
          obtain ⟨h1, h2, h3, h4, rs, h5, h6⟩ := ih data q' ct' payload q h
          exact ⟨h1, h2, h3, h4, rs, h5,
            inOrder_widen rs _ _ _ _ (by omega) (Nat.le_refl _) h6⟩
        | ok chunk q' =>
          rw [hr2] at h
          obtain ⟨a, ha1, ha2, -, ha4⟩ := readPushdata_ok raw opcode (p + 1) chunk q' hr2
          obtain ⟨h1, h2, h3, h4, rs, h5, h6⟩ := ih (data ++ chunk) q' ct' payload q h
          refine ⟨h1, h2, h3, h4, (a, chunk.length) :: rs, ?_, ?_⟩
          · rw [h5, rangesOf_cons, List.append_assoc]
            simp only
            rw [← ha4]
          · simp only [inOrder, Bool.and_eq_true, decide_eq_true_eq]
            exact ⟨by omega, by rw [ha2]; exact h6⟩
      · simp only [Prod.mk.injEq, Outcome.done.injEq] at h
        obtain ⟨⟨rfl, rfl⟩, rfl⟩ := h
        have hopc : opcode = OP_ENDIF := by
          by_contra hc; exact hop hc
        refine ⟨rfl, by omega, hc1, ?_, [], ?_, ?_⟩
        · simpa [hopc] using hbyte
        · simp [rangesOf]
        · simp [inOrder]

/-- The loop never reports a separator error. -/
theorem payloadLoop_outcome (raw : Slice) (ct : List Byte) :
    ∀ (fuel : Nat) (data : List Byte) (p : Nat) (c : List Byte),
      (payloadLoop raw ct fuel data p).1 ≠ .invalidSeparator c := by
  intro fuel
  induction fuel with
  | zero => intro data p c; simp [payloadLoop]
  | succ fuel ih =>
    intro data p c
    rw [payloadLoop]
    cases hr : readByte raw p with
    | panic q' => simp
    | err e q' => simp
    | ok opcode p1 =>
      simp only
      split_ifs with hop
      · cases hr2 : readPushdata raw opcode p1 with
        | panic q' => simp
        | err e q' => exact ih data q' c
        | ok chunk q' => exact ih (data ++ chunk) q' c
      · simp

/-- The terminator a normal end has read lies inside the buffer when the spare
capacity holds no byte `0x68`. -/
theorem terminator_inside (raw : Slice) (q : Nat) (hspare : OP_ENDIF ∉ raw.spare)
    (hq : 1 ≤ q) (h : raw.backing[q - 1]? = some OP_ENDIF) : q ≤ raw.len := by
  by_contra hc
  have hge : raw.data.length ≤ q - 1 := by unfold Slice.len at hc; omega
  unfold Slice.backing at h
  rw [List.getElem?_append_right hge] at h
  exact hspare (List.getElem?_mem h)

theorem readByte_outside (raw : Slice) (p : Nat) (h : raw.cap < p + 1) :
    readByte raw p = .panic p := by
  unfold readByte
  rw [readBytes_outside raw p 1 h]
  rfl

/-- On an envelope without terminator `decode` reads the content type and all
the pushes and then is the loop at the end of the buffer, with rounds left. -/
theorem decode_open (ct : List Byte) (chunks : List (PushForm × List Byte))
    (spare : List Byte) (pointer0 : Nat) (hct : ct.length ≤ 255)
    (hwf : ∀ c ∈ chunks, c.2.length ≤ c.1.maxLen) :
    ∃ fuel, (openEnvelope ct (encodeChunks chunks)).length + spare.length + 1
        ≤ fuel + (openEnvelope ct (encodeChunks chunks)).length ∧
      decode ⟨openEnvelope ct (encodeChunks chunks), spare⟩ pointer0
        = payloadLoop ⟨openEnvelope ct (encodeChunks chunks), spare⟩ ct (fuel + 1)
            (chunks.map Prod.snd).flatten (openEnvelope ct (encodeChunks chunks)).length := by
  have hk := length_le_encodeChunks chunks
  have hlen : (openEnvelope ct (encodeChunks chunks)).length
      = 10 + ct.length + (encodeChunks chunks).length := by
    simp [openEnvelope, contentTypeField, inscriptionMark]; omega
  have hpre : (inscriptionMark ++ contentTypeField ct ++ [0x00]).length = 10 + ct.length := by
    simp [contentTypeField, inscriptionMark]; omega
  refine ⟨10 + ct.length + (encodeChunks chunks).length + spare.length - chunks.length,
    by omega, ?_⟩
  have hframe := decode_framed ct (encodeChunks chunks) spare pointer0 hct
  unfold openEnvelope at hlen ⊢
  rw [hframe]
  have hrun := payloadLoop_run_chunks
    ⟨inscriptionMark ++ contentTypeField ct ++ [0x00] ++ encodeChunks chunks, spare⟩ ct chunks
    (inscriptionMark ++ contentTypeField ct ++ [0x00]) [] []
    (10 + ct.length + (encodeChunks chunks).length + spare.length - chunks.length + 1)
    hwf (by simp)
  rw [hpre] at hrun
  rw [hlen]
  have hF : 10 + ct.length + (encodeChunks chunks).length + spare.length + 1
      = 10 + ct.length + (encodeChunks chunks).length + spare.length - chunks.length + 1
        + chunks.length := by omega
  rw [hF, hrun]
  simp

/-- A normal end of `decode`: the content type and the chunks are sub-ranges of
the backing array, in order, and the last byte read is the terminator. -/
theorem decodeBody_done (raw : Slice) (c : List Byte) (pc : Nat) (ct payload : List Byte)
    (q : Nat) (h : decodeBody raw c pc = (.done ct payload, q)) :
    ct = c ∧ 1 ≤ q ∧ q ≤ raw.cap ∧ raw.backing[q - 1]? = some OP_ENDIF ∧
    ∃ rs, payload = rangesOf raw.backing rs ∧ inOrder (pc + 1) rs (q - 1) = true := by
  unfold decodeBody at h
  cases hr : readByte raw pc with
  | panic q' => rw [hr] at h; simp at h
  | err e q' => rw [hr] at h; simp at h
  | ok sep p1 =>
    rw [hr] at h
    obtain ⟨rfl, -⟩ := readByte_ok raw pc sep _ hr
    simp only at h
    split_ifs at h with hs
    · simp at h
    · obtain ⟨h1, h2, h3, h4, rs, h5, h6⟩ := payloadLoop_done raw c _ _ _ _ _ _ h
      exact ⟨h1, h2, h3, h4, rs, by simpa using h5, h6⟩

/-! ## Slices without spare capacity

On a slice whose capacity equals its length Go's own bounds check of the slice
expression stands in for the length check `readBytes` does not make. -/

theorem cap_eq_len (raw : Slice) (h : raw.spare = []) : raw.cap = raw.len := by
  simp [Slice.cap, Slice.len, h]

/-- Without spare capacity a read that runs over the end panics and leaves the
pointer where it was. -/
theorem readBytes_no_spare (raw : Slice) (n p : Nat) (h : raw.spare = [])
    (hover : raw.len < p + n) : readBytes raw n p = .panic p :=
  readBytes_outside raw p n (by rw [cap_eq_len raw h]; exact hover)

/-- Without spare capacity the pointer `decode` leaves is inside the buffer. -/
theorem decode_pointer_no_spare (raw : Slice) (pointer0 : Nat) (h : raw.spare = []) :
    (decode raw pointer0).2 ≤ raw.len := by
  rw [← cap_eq_len raw h]; exact decode_pointer raw pointer0

/-- Without spare capacity a loop entered at offset `p` ends within
`len(raw) + 1 - p` rounds. -/
theorem payloadLoop_fuel_no_spare (raw : Slice) (ct : List Byte) (fuel : Nat)
    (data : List Byte) (p : Nat) (h : raw.spare = []) (hf : raw.len + 1 ≤ fuel + p)
    (h1 : 1 ≤ fuel) : (payloadLoop raw ct fuel data p).1 ≠ .outOfFuel :=
  payloadLoop_fuel raw ct fuel data p (by rw [cap_eq_len raw h]; exact hf) h1

/-- An envelope without its terminator: on a slice without spare capacity
`decode` panics on the read of the next opcode, the pointer at `len(raw)`; on
a slice whose spare capacity holds no byte `0x68` it ends in a panic as
well. -/
theorem decode_open_envelope (ct : List Byte) (chunks : List (PushForm × List Byte))
    (spare : List Byte) (pointer0 : Nat) (hct : ct.length ≤ 255)
    (hwf : ∀ c ∈ chunks, c.2.length ≤ c.1.maxLen) :
    decode (.ofBytes (openEnvelope ct (encodeChunks chunks))) pointer0
      = (.panicked, (openEnvelope ct (encodeChunks chunks)).length) ∧
    (OP_ENDIF ∉ spare →
      (decode ⟨openEnvelope ct (encodeChunks chunks), spare⟩ pointer0).1 = .panicked) := by
  constructor
  · obtain ⟨fuel, -, hd⟩ := decode_open ct chunks [] pointer0 hct hwf
    unfold Slice.ofBytes
    rw [hd, payloadLoop, readByte_outside _ _ (by simp [Slice.cap])]
  · intro hspare
    obtain ⟨fuel, hf, hd⟩ := decode_open ct chunks spare pointer0 hct hwf
    rw [hd]
    generalize hraw : (⟨openEnvelope ct (encodeChunks chunks), spare⟩ : Slice) = raw at *
    have hlen : raw.len = (openEnvelope ct (encodeChunks chunks)).length := by
      rw [← hraw]; rfl
    have hcap : raw.cap = (openEnvelope ct (encodeChunks chunks)).length + spare.length := by
      rw [← hraw]; rfl
    have hsp : OP_ENDIF ∉ raw.spare := by rw [← hraw]; exact hspare
    rw [← hlen] at hf ⊢
    generalize hres : payloadLoop raw ct (fuel + 1) (chunks.map Prod.snd).flatten raw.len = res
    have hfuel := payloadLoop_fuel raw ct (fuel + 1) (chunks.map Prod.snd).flatten raw.len
      (by omega) (by omega)
    have hsep := payloadLoop_outcome raw ct (fuel + 1) (chunks.map Prod.snd).flatten raw.len
    rw [hres] at hfuel hsep
    obtain ⟨o, q⟩ := res
    cases o with
    | panicked => rfl
    | outOfFuel => exact absurd rfl hfuel
    | invalidSeparator c => exact absurd rfl (hsep c)
    | done ct' payload =>
      obtain ⟨-, h2, -, h4, rs, -, h6⟩ := payloadLoop_done raw ct _ _ _ _ _ _ hres
      have h7 := terminator_inside raw q hsp h2 h4
      have h8 := inOrder_le rs _ _ h6
      omega

/-! ## The claims -/

/-- C1. For every content type `ct` of at most 255 bytes and every list of
chunks, each non-empty and each pushed in a form that can announce its length
(direct up to 75 bytes, `PUSHDATA1` up to 255, `PUSHDATA2` up to 65535,
`PUSHDATA4` below `2^32`), `decode` on the buffer
`marker ++ [01, 01, len ct] ++ ct ++ [00] ++ pushes ++ [68]` ends in `done`
with content type `ct` and with the chunks concatenated in order as payload,
the pointer at the end of the buffer.  This holds for every capacity of the
slice and every earlier value of the global pointer. -/
theorem decode_valid_envelope (ct : List Byte) (chunks : List (PushForm × List Byte))
    (spare : List Byte) (pointer0 : Nat) (hct : ct.length ≤ 255)
    (hwf : ∀ c ∈ chunks, c.2 ≠ [] ∧ c.2.length ≤ c.1.maxLen) :
    decode ⟨envelope ct (encodeChunks chunks), spare⟩ pointer0
      = (.done ct (chunks.map Prod.snd).flatten,
          (envelope ct (encodeChunks chunks)).length) :=
  decode_envelope ct chunks spare pointer0 hct (fun c hc => (hwf c hc).2)

/-- Witness of C1: content type "gif", one chunk `05 48 65 6c 6c 6f`. -/
theorem decode_valid_envelope_witness :
    envelope [0x67, 0x69, 0x66] (encodeChunks [(.direct, [0x48, 0x65, 0x6c, 0x6c, 0x6f])])
      = [0x00, 0x63, 0x03, 0x6f, 0x72, 0x64, 0x01, 0x01, 0x03, 0x67, 0x69, 0x66, 0x00,
          0x05, 0x48, 0x65, 0x6c, 0x6c, 0x6f, 0x68] ∧
    decode ⟨envelope [0x67, 0x69, 0x66]
        (encodeChunks [(.direct, [0x48, 0x65, 0x6c, 0x6c, 0x6f])]), []⟩ 0
      = (.done [0x67, 0x69, 0x66] [0x48, 0x65, 0x6c, 0x6c, 0x6f], 20) :=
  ⟨by decide, decode_valid_envelope [0x67, 0x69, 0x66]
    [(.direct, [0x48, 0x65, 0x6c, 0x6c, 0x6f])] [] 0 (by decide) (by decide)⟩

/-- C2. Round trip: for every content type of at most 255 bytes and every
payload shorter than `2^32` bytes, `decode` on `encodeInscription ct payload`
(one push of the payload, its form chosen by length tier) ends in `done` with
exactly `ct` and `payload`.  The empty payload is included: its push is the
single byte `00`, for which `readPushdata` returns an error that `decode`
discards, so the payload stays empty. -/
theorem decode_encodeInscription (ct payload spare : List Byte) (pointer0 : Nat)
    (hct : ct.length ≤ 255) (hp : payload.length < 2 ^ 32) :
    decode ⟨encodeInscription ct payload, spare⟩ pointer0
      = (.done ct payload, (encodeInscription ct payload).length) := by
  have he : encodeInscription ct payload
      = envelope ct (encodeChunks [(tierOf payload.length, payload)]) := by
    simp [encodeInscription, encodeChunks]
  have := decode_envelope ct [(tierOf payload.length, payload)] spare pointer0 hct
    (by
      intro c hc
      rw [List.mem_singleton] at hc
      subst hc
      exact tierOf_fits _ hp)
  rw [he, this]
  simp

/-- Witness of C2: content type "gif" with the empty payload. -/
theorem decode_encodeInscription_witness :
    encodeInscription [0x67, 0x69, 0x66] []
      = [0x00, 0x63, 0x03, 0x6f, 0x72, 0x64, 0x01, 0x01, 0x03, 0x67, 0x69, 0x66, 0x00,
          0x00, 0x68] ∧
    decode ⟨encodeInscription [0x67, 0x69, 0x66] [], []⟩ 0
      = (.done [0x67, 0x69, 0x66] [], 15) :=
  ⟨by decide, decode_encodeInscription [0x67, 0x69, 0x66] [] [] 0 (by decide) (by decide)⟩

/-- C3, evaluated on the code.  The buffer `51 00 00 68` does not contain the
marker and `getInitialPosition` returns the error for it, yet `decode`, which
discards that error and keeps the returned offset `0`, parses the buffer from
offset `0` and ends in `done` with an empty content type and an empty
payload. -/
theorem decode_without_marker_reaches_done :
    (∀ i, ((Slice.ofBytes [0x51, 0x00, 0x00, 0x68]).data.drop i).take 6 ≠ inscriptionMark) ∧
    getInitialPosition (.ofBytes [0x51, 0x00, 0x00, 0x68]) = (0, some .markerNotFound) ∧
    decode (.ofBytes [0x51, 0x00, 0x00, 0x68]) 0 = (.done [] [], 4) := by
  refine ⟨?_, by decide, by decide⟩
  intro i
  rcases Nat.lt_or_ge i 4 with h | h
  · interval_cases i <;> decide
  · rw [List.drop_of_length_le (by simpa [Slice.ofBytes] using h)]; decide

/-- C4. `getInitialPosition` returns the error exactly when the six marker
bytes occur at no offset of the buffer, and then the pair is `(0, error)`; when
`i` is the smallest offset at which `raw[i..i+6)` is the marker, it returns
`(i + 6, nil)`; and whenever it returns without error the offset lies between
`6` and `len(raw)`. -/
theorem getInitialPosition_first_occurrence (raw : Slice) :
    ((getInitialPosition raw).2 ≠ none ↔
        ∀ i, (raw.data.drop i).take 6 ≠ inscriptionMark) ∧
    ((∀ i, (raw.data.drop i).take 6 ≠ inscriptionMark) →
        getInitialPosition raw = (0, some Err.markerNotFound)) ∧
    (∀ i, (raw.data.drop i).take 6 = inscriptionMark →
        (∀ j, j < i → (raw.data.drop j).take 6 ≠ inscriptionMark) →
        getInitialPosition raw = (i + 6, none)) ∧
    ((getInitialPosition raw).2 = none →
        6 ≤ (getInitialPosition raw).1 ∧ (getInitialPosition raw).1 ≤ raw.len) := by
  have hnone := stringsIndex_eq_none_iff inscriptionMark raw.data
  have hsome := stringsIndex_eq_some_iff inscriptionMark raw.data
  simp only [mark_prefix_iff] at hnone hsome
  refine ⟨?_, ?_, ?_, ?_⟩
  · rw [← hnone]
    unfold getInitialPosition
    cases stringsIndex raw.data inscriptionMark <;> simp
  · intro h
    unfold getInitialPosition
    rw [hnone.mpr h]
  · intro i h1 h2
    unfold getInitialPosition
    rw [(hsome i).mpr ⟨h1, h2⟩]
    rfl
  · unfold getInitialPosition
    cases hs : stringsIndex raw.data inscriptionMark with
    | none => simp
    | some i =>
      intro _
      have h1 := ((hsome i).mp hs).1
      have hl : ((raw.data.drop i).take 6).length = 6 := by rw [h1]; rfl
      simp only [List.length_take, List.length_drop] at hl
      simp only [inscriptionMark, List.length_cons, List.length_nil, Slice.len]
      omega

/-- Witness of C4: the marker occurs at offsets 1 and 7, the first one inside
what a script would read as push data; the result is `1 + 6`. -/
theorem getInitialPosition_first_occurrence_witness :
    getInitialPosition (.ofBytes [0x4c, 0x00, 0x63, 0x03, 0x6f, 0x72, 0x64,
      0x00, 0x63, 0x03, 0x6f, 0x72, 0x64]) = (7, none) :=
  (getInitialPosition_first_occurrence (.ofBytes [0x4c, 0x00, 0x63, 0x03, 0x6f, 0x72, 0x64,
      0x00, 0x63, 0x03, 0x6f, 0x72, 0x64])).2.2.1 1 (by decide) (by decide)

/-- C5, evaluated on the code.  Opcode `02` announces two bytes where one is
left.  `readPushdata` has no length check on a direct push: on a slice whose
capacity equals its length it panics, on a slice with spare capacity it
returns a byte from beyond the end of the buffer, and it never returns the
"Invalid data length" error.  The same push inside an envelope makes `decode`
panic. -/
theorem direct_push_overrun_panics :
    readPushdata (.ofBytes [0x02, 0x41]) 0x02 1 = .panic 1 ∧
    readPushdata ⟨[0x02, 0x41], [0x07]⟩ 0x02 1 = .ok [0x41, 0x07] 3 ∧
    decode (.ofBytes (inscriptionMark ++ [0x01, 0x01, 0x00, 0x00, 0x02, 0x41])) 0
      = (.panicked, 11) := by
  decide

/-- C6, evaluated on the code.  In the envelope
`marker 01 01 00 00 | 00 ff 68` the payload loop reads the opcodes `00` and
`ff`, neither a push nor the terminator.  `readPushdata` returns the "Invalid
push opcode" error for both, `decode` discards it, skips the byte and ends in
`done`. -/
theorem decode_skips_invalid_opcode :
    readPushdata (.ofBytes (inscriptionMark ++ [0x01, 0x01, 0x00, 0x00, 0x00, 0xff, 0x68]))
        0x00 11 = .err .invalidPushOpcode 11 ∧
    decode (.ofBytes (inscriptionMark ++ [0x01, 0x01, 0x00, 0x00, 0x00, 0xff, 0x68])) 0
      = (.done [] [], 13) := by
  decide

/-- C7. When the declared push at offset `p` (length-field width `w`, length
`n`, computed as the specification says: the opcode itself, `raw[p]`,
`raw[p] + 256*raw[p+1]`, or the four-byte little-endian sum) lies completely
inside the buffer, `readPushdata` returns exactly the `n` bytes
`raw[p+w .. p+w+n)` and leaves the pointer at `p + w + n`. -/
theorem readPushdata_complete (raw : Slice) (opcode : Byte) (p w n : Nat)
    (hd : declaredPush raw.data opcode p = some (w, n)) (hfit : p + w + n ≤ raw.len) :
    readPushdata raw opcode p = .ok ((raw.data.drop (p + w)).take n) (p + w + n) := by
  unfold declaredPush at hd
  split_ifs at hd with h1 h2 h3 h4
  · cases hd
    rw [readPushdata_direct raw opcode p h1, readBytes_inside raw p _ (by omega)]
    rfl
  · cases h0 : raw.data[p]? with
    | none => simp [h0] at hd
    | some b0 =>
      simp only [h0, Option.some.injEq, Prod.mk.injEq] at hd
      obtain ⟨rfl, rfl⟩ := hd
      apply readPushdata_sized raw opcode p 1 _ (by simp [numBytesOf, h2]) (by omega) _ hfit
      rw [drop_of_getElem? _ _ _ h0]
      rfl
  · cases h0 : raw.data[p]? with
    | none => simp [h0] at hd
    | some b0 =>
      cases h1' : raw.data[p + 1]? with
      | none => simp [h0, h1'] at hd
      | some b1 =>
        simp only [h0, h1', Option.some.injEq, Prod.mk.injEq] at hd
        obtain ⟨rfl, rfl⟩ := hd
        apply readPushdata_sized raw opcode p 2 _ (by simp [numBytesOf, h3]) (by omega) _ hfit
        rw [drop_of_getElem? _ _ _ h0, drop_of_getElem? _ _ _ h1']
        simp only [List.take_succ_cons, sizeOf, littleEndianUint16, uint16_eq]
  · cases h0 : raw.data[p]? with
    | none => simp [h0] at hd
    | some b0 =>
      cases h1' : raw.data[p + 1]? with
      | none => simp [h0, h1'] at hd
      | some b1 =>
        cases h2' : raw.data[p + 2]? with
        | none => simp [h0, h1', h2'] at hd
        | some b2 =>
          cases h3' : raw.data[p + 3]? with
          | none => simp [h0, h1', h2', h3'] at hd
          | some b3 =>
            simp only [h0, h1', h2', h3', Option.some.injEq, Prod.mk.injEq] at hd
            obtain ⟨rfl, rfl⟩ := hd
            apply readPushdata_sized raw opcode p 4 _ (by simp [numBytesOf, h4]) (by omega) _ hfit
            rw [drop_of_getElem? _ _ _ h0, drop_of_getElem? _ _ _ h1',
              drop_of_getElem? _ _ _ h2', drop_of_getElem? _ _ _ h3']
            simp only [List.take_succ_cons, sizeOf, littleEndianUint32, uint32_eq]

/-- Witness of C7: a `PUSHDATA2` of three bytes read at offset 1. -/
theorem readPushdata_complete_witness :
    declaredPush [0x4d, 0x03, 0x00, 0x61, 0x62, 0x63, 0x68] 0x4d 1 = some (2, 3) ∧
    readPushdata (.ofBytes [0x4d, 0x03, 0x00, 0x61, 0x62, 0x63, 0x68]) 0x4d 1
      = .ok [0x61, 0x62, 0x63] 6 :=
  ⟨by decide, readPushdata_complete (.ofBytes [0x4d, 0x03, 0x00, 0x61, 0x62, 0x63, 0x68])
    0x4d 1 2 3 (by decide) (by decide)⟩

/-- C8. For every buffer, every pointer and every opcode outside
`0x01..0x4e`, `readPushdata` returns the "Invalid push opcode" error, no
bytes, and the pointer is unchanged. -/
theorem readPushdata_invalid_opcode (raw : Slice) (opcode : Byte) (p : Nat)
    (h : ¬ (0x01 ≤ opcode.val ∧ opcode.val ≤ 0x4e)) :
    readPushdata raw opcode p = .err .invalidPushOpcode p :=
  readPushdata_invalid_aux raw opcode p h

/-- Witness of C8: the terminator `0x68` handed to `readPushdata`. -/
theorem readPushdata_invalid_opcode_witness :
    ¬ (0x01 ≤ OP_ENDIF.val ∧ OP_ENDIF.val ≤ 0x4e) ∧
    readPushdata (.ofBytes [0x68, 0x01, 0x02]) OP_ENDIF 1 = .err .invalidPushOpcode 1 :=
  ⟨by decide, readPushdata_invalid_opcode _ _ _ (by decide)⟩

/-- C9 as stated fails.  On the buffer `51 01 41` with the pointer at the byte
`0x51`, `readContentType` does not return the empty content type after one
byte: it goes on to read the size byte `01` and returns the content type
`41`, the pointer at 3. -/
theorem op1_content_type_not_empty :
    (Slice.ofBytes [0x51, 0x01, 0x41]).data[0]? = some OP_1 ∧
    readContentType (.ofBytes [0x51, 0x01, 0x41]) 0 = .ok [0x41] 3 ∧
    readContentType (.ofBytes [0x51, 0x01, 0x41]) 0 ≠ .ok [] 1 := by
  decide

/-- C9 amended.  For every buffer whose byte at the pointer `p` is `0x51`,
`readContentType` takes that byte in place of the `01 01` prefix and then reads
the size byte `s = raw[p+1]` and `s` content bytes: when `p + 2 + s` does not
exceed `len(raw)` it returns `raw[p+2 .. p+2+s)` and leaves the pointer at
`p + 2 + s`. -/
theorem readContentType_after_op1 (raw : Slice) (p : Nat) (s : Byte)
    (h0 : raw.data[p]? = some 0x51) (h1 : raw.data[p + 1]? = some s)
    (hfit : p + 2 + s.val ≤ raw.len) :
    readContentType raw p = .ok ((raw.data.drop (p + 2)).take s.val) (p + 2 + s.val) := by
  unfold readContentType
  rw [readByte_inside raw p _ h0]
  simp only [Res.bind]
  rw [if_neg (by decide)]
  simp only [Res.bind]
  rw [readByte_inside raw (p + 1) _ h1]
  simp only [Res.bind]
  rw [readBytes_inside raw (p + 1 + 1) s.val (by omega)]

/-- Witness of C9 amended: `51 03 "gif" 00` read from offset 0. -/
theorem readContentType_after_op1_witness :
    readContentType (.ofBytes [0x51, 0x03, 0x67, 0x69, 0x66, 0x00]) 0
      = .ok [0x67, 0x69, 0x66] 5 :=
  readContentType_after_op1 (.ofBytes [0x51, 0x03, 0x67, 0x69, 0x66, 0x00]) 0 0x03
    (by decide) (by decide) (by decide)

/-- C10. For every buffer and pointer `p` with `raw[p] = 0x01`,
`raw[p+1] = 0x01`, `raw[p+2] = s` and `p + 3 + s ≤ len(raw)`, `readContentType`
succeeds, returns the bytes `raw[p+3 .. p+3+s)` as they are, and leaves the
pointer at `p + 3 + s`. -/
theorem readContentType_prefixed (raw : Slice) (p : Nat) (s : Byte)
    (h0 : raw.data[p]? = some 0x01) (h1 : raw.data[p + 1]? = some 0x01)
    (h2 : raw.data[p + 2]? = some s) (hfit : p + 3 + s.val ≤ raw.len) :
    readContentType raw p = .ok ((raw.data.drop (p + 3)).take s.val) (p + 3 + s.val) :=
  readContentType_tagged raw p s h0 h1 h2 hfit

/-- Witness of C10: two bytes that are not valid UTF-8 come back unchanged. -/
theorem readContentType_prefixed_witness :
    readContentType (.ofBytes [0x00, 0x01, 0x01, 0x02, 0xff, 0xfe, 0x00]) 1
      = .ok [0xff, 0xfe] 6 :=
  readContentType_prefixed (.ofBytes [0x00, 0x01, 0x01, 0x02, 0xff, 0xfe, 0x00]) 1 0x02
    (by decide) (by decide) (by decide) (by decide)

/-- C11. For every buffer with two bytes `b0`, `b1` at the pointer `p`, the
first not `0x51`: `readContentType` returns the "Invalid byte sequence" error
exactly when `b0` is not `0x01` or `b1` is not `0x01`.  In that case nothing is
returned and only prefix bytes have been consumed: the pointer is `p + 1` when
`b0` is wrong (the second byte is not read then) and `p + 2` when `b1` is
wrong; no size byte and no content byte is read. -/
theorem readContentType_prefix_error (raw : Slice) (p : Nat) (b0 b1 : Byte)
    (h0 : raw.data[p]? = some b0) (h1 : raw.data[p + 1]? = some b1) (hne : b0 ≠ OP_1) :
    ((∃ q, readContentType raw p = .err .invalidContentTypePrefix q)
        ↔ (b0 ≠ 0x01 ∨ b1 ≠ 0x01)) ∧
    (b0 ≠ 0x01 → readContentType raw p = .err .invalidContentTypePrefix (p + 1)) ∧
    (b0 = 0x01 → b1 ≠ 0x01 →
        readContentType raw p = .err .invalidContentTypePrefix (p + 2)) := by
  refine ⟨⟨?_, ?_⟩, ?_, ?_⟩
  · rintro ⟨q, hq⟩
    by_contra hboth
    have hb0 : b0 = 0x01 := by
      by_contra hc; exact hboth (Or.inl hc)
    have hb1 : b1 = 0x01 := by
      by_contra hc; exact hboth (Or.inr hc)
    subst hb0 hb1
    rw [readContentType_good_tag raw p h0 h1] at hq
    exact readSized_ne_err raw _ _ _ hq
  · intro h
    by_cases hb0 : b0 = 0x01
    · subst hb0
      rcases h with h | h
      · exact absurd rfl h
      · exact ⟨p + 2, readContentType_bad_second raw p b1 h0 h1 h⟩
    · exact ⟨p + 1, readContentType_bad_first raw p b0 h0 hne hb0⟩
  · intro hb0
    exact readContentType_bad_first raw p b0 h0 hne hb0
  · intro hb0 hb1
    subst hb0
    exact readContentType_bad_second raw p b1 h0 h1 hb1

/-- Witness of C11: `01 02` at the pointer, the second prefix byte is wrong. -/
theorem readContentType_prefix_error_witness :
    readContentType (.ofBytes [0x01, 0x02, 0x03, 0x67, 0x69, 0x66]) 0
      = .err .invalidContentTypePrefix 2 :=
  (readContentType_prefix_error (.ofBytes [0x01, 0x02, 0x03, 0x67, 0x69, 0x66]) 0 0x01 0x02
    (by decide) (by decide) (by decide)).2.2 (by decide) (by decide)

/-- C12, evaluated on the code.  On `marker ++ [02, 00, 68]` `readContentType`
returns the "Invalid byte sequence" error after one byte; `decode` discards the
error, goes on with the empty string as content type, accepts the separator
`00` and the terminator `68`, and ends in `done` with an empty content type and
an empty payload. -/
theorem decode_ignores_content_type_error :
    (getInitialPosition (.ofBytes (inscriptionMark ++ [0x02, 0x00, 0x68]))).2 = none ∧
    readContentType (.ofBytes (inscriptionMark ++ [0x02, 0x00, 0x68])) 6
      = .err .invalidContentTypePrefix 7 ∧
    decode (.ofBytes (inscriptionMark ++ [0x02, 0x00, 0x68])) 0 = (.done [] [], 9) := by
  decide

/-- C13. When `readContentType`, started at the offset `getInitialPosition`
gave, returns the content type `ct` with the pointer at `p`, and `b` is the
byte of the buffer at `p` (in particular when the marker was found):
if `b` is not `0x00`, `decode` prints the error and returns, with no payload
(outcome `invalidSeparator`, pointer `p + 1`); if `b` is `0x00`, `decode` is
the payload loop entered at `p + 1` with the empty payload. -/
theorem decode_separator (raw : Slice) (pointer0 : Nat) (ct : List Byte) (p : Nat) (b : Byte)
    (hct : readContentType raw (getInitialPosition raw).1 = .ok ct p)
    (hb : raw.data[p]? = some b) :
    (b ≠ 0x00 → decode raw pointer0 = (.invalidSeparator ct, p + 1)) ∧
    (b = 0x00 → decode raw pointer0 = payloadLoop raw ct (raw.cap + 1) [] (p + 1)) := by
  have hd : decode raw pointer0 = decodeBody raw ct p := by
    unfold decode
    simp only [hct]
  rw [hd]
  unfold decodeBody
  rw [readByte_inside raw p b hb]
  constructor
  · intro h
    simp only [ne_eq, h, not_false_eq_true, if_true]
  · intro h
    simp only [ne_eq, h, not_true_eq_false, if_false]

/-- Witness of C13: after the content type "gif" the byte `07` stands where
the separator should be. -/
theorem decode_separator_witness :
    decode (.ofBytes (inscriptionMark ++ [0x01, 0x01, 0x03, 0x67, 0x69, 0x66, 0x07, 0x68])) 0
      = (.invalidSeparator [0x67, 0x69, 0x66], 13) :=
  (decode_separator
    (.ofBytes (inscriptionMark ++ [0x01, 0x01, 0x03, 0x67, 0x69, 0x66, 0x07, 0x68])) 0
    [0x67, 0x69, 0x66] 12 0x07 (by decide) (by decide)).1 (by decide)

/-- C14, evaluated on the code.  `readBytes` makes no length check.  On a
slice of length 1 and capacity 2 a read of two bytes from offset 0 goes beyond
`len(raw)` and does not fail: it returns the byte of the buffer followed by a
byte of the spare capacity and moves the pointer to 2.  The same happens inside
`decode` on the buffer `marker 01 01 00 00 02 41` (length 12), held in the
slice of capacity 24 that its hex string `0063036f7264010100000241` is decoded
in: the read of two bytes at offset 11 returns `41` and the character code
`30`. -/
theorem readBytes_beyond_length :
    (⟨[0x41], [0x30]⟩ : Slice).len < 0 + 2 ∧
    readBytes ⟨[0x41], [0x30]⟩ 2 0 = .ok [0x41, 0x30] 2 ∧
    readBytes ⟨inscriptionMark ++ [0x01, 0x01, 0x00, 0x00, 0x02, 0x41],
        [0x30, 0x31, 0x30, 0x31, 0x30, 0x30, 0x30, 0x30, 0x30, 0x32, 0x34, 0x31]⟩ 2 11
      = .ok [0x41, 0x30] 13 := by
  decide

/-- C15, evaluated on the code.  The pointer passes `len(raw)`, because no
read checks the length.  `readPushdata` with opcode `02` at pointer 1 of the
two-byte slice `02 41` of capacity 3 leaves the pointer at 3.  In a call of
`decode`: the 12-byte buffer `marker 01 01 00 00 02 41` in a slice whose spare
capacity holds the character codes of the second half of its hex string
`0063036f7264010100000241` (what a hex decoding done inside the byte copy of
the string leaves there) ends with the pointer at 14. -/
theorem pointer_exceeds_length :
    (1 ≤ (⟨[0x02, 0x41], [0x30]⟩ : Slice).len ∧
      (readPushdata ⟨[0x02, 0x41], [0x30]⟩ 0x02 1).pointer = 3 ∧
      (⟨[0x02, 0x41], [0x30]⟩ : Slice).len = 2) ∧
    (decode ⟨inscriptionMark ++ [0x01, 0x01, 0x00, 0x00, 0x02, 0x41],
        [0x30, 0x31, 0x30, 0x31, 0x30, 0x30, 0x30, 0x30, 0x30, 0x32, 0x34, 0x31]⟩ 0
        = (.panicked, 14) ∧
      (⟨inscriptionMark ++ [0x01, 0x01, 0x00, 0x00, 0x02, 0x41],
        [0x30, 0x31, 0x30, 0x31, 0x30, 0x30, 0x30, 0x30, 0x30, 0x32, 0x34, 0x31]⟩ : Slice).len
        = 12) := by
  decide

/-- C16, evaluated on the code.  The "gif"/"Hello" buffer without its final
`68` (19 bytes), in the slice of capacity 48 that its hex string
`0063036f7264010103676966000548656c6c6f` is decoded in: the spare capacity
holds the character codes of the second half of the string and ten zero bytes.
The read of the next opcode at offset 19 is not checked against `len(raw)` and
does not fail: it takes the character code `37` from beyond the buffer as an
opcode, and the panic comes from the push of 55 bytes that this opcode
announces, with the pointer at 20. -/
theorem missing_terminator_reads_on :
    (⟨[0x00, 0x63, 0x03, 0x6f, 0x72, 0x64, 0x01, 0x01, 0x03, 0x67, 0x69, 0x66, 0x00,
          0x05, 0x48, 0x65, 0x6c, 0x6c, 0x6f],
        [0x37, 0x36, 0x39, 0x36, 0x36, 0x30, 0x30, 0x30, 0x35, 0x34, 0x38, 0x36, 0x35, 0x36,
          0x63, 0x36, 0x63, 0x36, 0x66, 0, 0, 0, 0, 0, 0, 0, 0, 0, 0]⟩ : Slice).len = 19 ∧
    readByte ⟨[0x00, 0x63, 0x03, 0x6f, 0x72, 0x64, 0x01, 0x01, 0x03, 0x67, 0x69, 0x66, 0x00,
          0x05, 0x48, 0x65, 0x6c, 0x6c, 0x6f],
        [0x37, 0x36, 0x39, 0x36, 0x36, 0x30, 0x30, 0x30, 0x35, 0x34, 0x38, 0x36, 0x35, 0x36,
          0x63, 0x36, 0x63, 0x36, 0x66, 0, 0, 0, 0, 0, 0, 0, 0, 0, 0]⟩ 19 = .ok 0x37 20 ∧
    decode ⟨[0x00, 0x63, 0x03, 0x6f, 0x72, 0x64, 0x01, 0x01, 0x03, 0x67, 0x69, 0x66, 0x00,
          0x05, 0x48, 0x65, 0x6c, 0x6c, 0x6f],
        [0x37, 0x36, 0x39, 0x36, 0x36, 0x30, 0x30, 0x30, 0x35, 0x34, 0x38, 0x36, 0x35, 0x36,
          0x63, 0x36, 0x63, 0x36, 0x66, 0, 0, 0, 0, 0, 0, 0, 0, 0, 0]⟩ 0 = (.panicked, 20) := by
  decide

/-- C17. The outcome of `decode` and the pointer it leaves do not depend on the
value the global pointer had before the call: `decode` overwrites it with the
result of `getInitialPosition` before anything reads it.  In particular a call
that follows another call, on the same or on a different buffer, gives what a
first call gives. -/
theorem decode_independent_of_pointer (raw other : Slice) (p0 p1 : Nat) :
    decode raw p0 = decode raw p1 ∧
    decode raw (decode other p0).2 = decode raw p0 ∧
    decode raw (decode raw p0).2 = decode raw p0 :=
  ⟨rfl, rfl, rfl⟩

/-- C18, evaluated on the code.  The 20-byte buffer `marker 01 01 00 00 ff×10`
in the slice of capacity 48 that its hex string is decoded in: the spare
capacity holds the character codes of the second half of the string (twenty
times `f`) and eight zero bytes.  The loop is entered at offset 10; its opcode
reads are not checked against `len(raw)`, so it goes on over the bytes behind
the buffer, each an invalid opcode that is skipped: 21 rounds do not end it,
the body runs more than `len(raw) = 20` times, and `decode` ends by a panic at
offset 48, the capacity. -/
theorem loop_rounds_exceed_length :
    (⟨inscriptionMark ++ [0x01, 0x01, 0x00, 0x00] ++ List.replicate 10 0xff,
        List.replicate 20 0x66 ++ List.replicate 8 0x00⟩ : Slice).len = 20 ∧
    (payloadLoop ⟨inscriptionMark ++ [0x01, 0x01, 0x00, 0x00] ++ List.replicate 10 0xff,
        List.replicate 20 0x66 ++ List.replicate 8 0x00⟩ [] (20 + 1) [] 10).1 = .outOfFuel ∧
    decode ⟨inscriptionMark ++ [0x01, 0x01, 0x00, 0x00] ++ List.replicate 10 0xff,
        List.replicate 20 0x66 ++ List.replicate 8 0x00⟩ 0 = (.panicked, 48) := by
  decide

/-- C19. Whenever `decode` ends in `done` with content type `ct` and payload
`payload`, on a slice whose spare capacity holds no byte `0x68` (the memory
behind a hex-decoded buffer holds none: `0x68` is not the code of a hex digit;
a slice without spare capacity is the special case): `len ct + len payload` is
less than `len(raw)`, and `ct` and the chunks that make up `payload` are
sub-ranges of the buffer listed in order: `ct` is `raw[a .. a + len ct)`, the
payload is the concatenation of ranges `raw[s .. s + n)` that start at or after
`a + len ct`, follow one another without overlap and end inside the buffer. -/
theorem decode_output_within_buffer (raw : Slice) (pointer0 : Nat) (ct payload : List Byte)
    (q : Nat) (hspare : OP_ENDIF ∉ raw.spare)
    (h : decode raw pointer0 = (.done ct payload, q)) :
    ct.length + payload.length < raw.len ∧
    ∃ (a : Nat) (rs : List (Nat × Nat)),
      ct = (raw.data.drop a).take ct.length ∧
      payload = rangesOf raw.data rs ∧
      inOrder (a + ct.length) rs raw.len = true := by
  have key : ∀ (c : List Byte) (a pc : Nat), a + c.length ≤ pc →
      c = (raw.backing.drop a).take c.length →
      decodeBody raw c pc = (.done ct payload, q) →
      ct.length + payload.length < raw.len ∧
      ∃ (a : Nat) (rs : List (Nat × Nat)),
        ct = (raw.data.drop a).take ct.length ∧
        payload = rangesOf raw.data rs ∧
        inOrder (a + ct.length) rs raw.len = true := by
    intro c a pc ha hc hb
    obtain ⟨rfl, h2, -, h4, rs, h5, h6⟩ := decodeBody_done raw c pc ct payload q hb
    have hq := terminator_inside raw q hspare h2 h4
    have hle := inOrder_le rs _ _ h6
    have hwide : inOrder (a + ct.length) rs raw.len = true :=
      inOrder_widen rs _ _ _ _ (by omega) (by omega) h6
    have hsum := rangesOf_length rs raw.backing _ _ h6
    refine ⟨?_, a, rs, ?_, ?_, hwide⟩
    · rw [h5]; omega
    · rw [← backing_drop_take raw a ct.length (by omega)]; exact hc
    · rw [h5, rangesOf_backing rs raw _ hwide]
  unfold decode at h
  simp only at h
  cases hr : readContentType raw (getInitialPosition raw).1 with
  | panic q' => rw [hr] at h; simp at h
  | err e pc =>
    rw [hr] at h
    exact key [] 0 pc (by simp) (by simp) h
  | ok c pc =>
    rw [hr] at h
    obtain ⟨a, -, ha2, -, ha4⟩ := readContentType_ok raw _ c pc hr
    exact key c a pc (by omega) ha4 h

/-- Witness of C19: the "gif"/"Hello" envelope, 20 bytes, gives 3 + 5 bytes. -/
theorem decode_output_within_buffer_witness :
    ([0x67, 0x69, 0x66] : List Byte).length + ([0x48, 0x65, 0x6c, 0x6c, 0x6f] : List Byte).length
      < (Slice.ofBytes [0x00, 0x63, 0x03, 0x6f, 0x72, 0x64, 0x01, 0x01, 0x03, 0x67, 0x69,
          0x66, 0x00, 0x05, 0x48, 0x65, 0x6c, 0x6c, 0x6f, 0x68]).len :=
  (decode_output_within_buffer (.ofBytes [0x00, 0x63, 0x03, 0x6f, 0x72, 0x64, 0x01, 0x01,
      0x03, 0x67, 0x69, 0x66, 0x00, 0x05, 0x48, 0x65, 0x6c, 0x6c, 0x6f, 0x68]) 0
    [0x67, 0x69, 0x66] [0x48, 0x65, 0x6c, 0x6c, 0x6f] 20 (by decide) (by decide)).1

/-- C20. For an extended push (opcode `0x4c`, `0x4d`, `0x4e`, length field of
`w = 1, 2, 4` bytes) read at the pointer `p`: if `p + w > len(raw)`,
`readPushdata` returns the "Invalid data length" error with the pointer still
at `p`; if the length field fits and announces `n` bytes with
`p + w + n > len(raw)`, it returns the same error with the pointer at `p + w`:
the length field has been consumed and no data is returned. -/
theorem readPushdata_failure_pointer (raw : Slice) (opcode : Byte) (p w : Nat)
    (hw : numBytesOf opcode.val = some w) :
    (raw.len < p + w → readPushdata raw opcode p = .err .truncatedPushData p) ∧
    (∀ n, p + w ≤ raw.len → declaredPush raw.data opcode p = some (w, n) →
        raw.len < p + w + n →
        readPushdata raw opcode p = .err .truncatedPushData (p + w)) := by
  constructor
  · exact readPushdata_field_missing raw opcode p w hw
  · intro n hfit hd hover
    exact readPushdata_extended_truncated raw opcode p w n hw hfit
      (declaredPush_extended raw.data opcode p w w n hw hd).2 hover

/-- Witness of C20: `4d 03 00 61` read after the opcode; three bytes are
announced and one is left, the pointer ends after the length field. -/
theorem readPushdata_failure_pointer_witness :
    readPushdata (.ofBytes [0x4d, 0x03, 0x00, 0x61]) 0x4d 1 = .err .truncatedPushData 3 ∧
    readPushdata (.ofBytes [0x4d, 0x03]) 0x4d 1 = .err .truncatedPushData 1 :=
  ⟨(readPushdata_failure_pointer (.ofBytes [0x4d, 0x03, 0x00, 0x61]) 0x4d 1 2 (by decide)).2 3
      (by decide) (by decide) (by decide),
   (readPushdata_failure_pointer (.ofBytes [0x4d, 0x03]) 0x4d 1 2 (by decide)).1 (by decide)⟩

end Brc20Decode
